import Mathlib

/-!
# A verification development for the `rkv` LSM key-value store

This file gives a shallow embedding of the core of the `rkv` repository
(an LSM-tree key-value store) and proves or refutes the frozen claims
about it.

The embedding follows the source files:

* `src/store/lsm_store.rs` — `KVStore` (`new`, `set`, `get`, `delete`,
  `compaction`, `flush_memtable`, `discover_sstables`), the free
  functions `parallel_search`, `create_sstable` and `compaction`;
* `src/sstable/sst.rs` — `SSTable::search` (index-driven binary search)
  and `merge_two` (pairwise cursor merge with a chunked staging buffer);
* `src/sstable/sstable.rs` — `SSTable::as_hashmap` (full scan into a
  map, dropping tombstone records), used by the store-level compaction.

Modelling conventions:

* Keys and values are byte strings, embedded as `List Nat`; the byte-wise
  unsigned comparison used by Rust's `Ord` on `Vec<u8>` is `compareBytes`.
* An SSTable is embedded as the list of `(key, value)` records of its
  data file in file order.  The index file of the source is a dense list
  of one offset per record (invariants I2/I3 of the spec), so
  `futil::get_index_range` becomes `(0, records.length)` and
  `futil::key_value_at i` becomes indexing into the record list.
* `BTreeMap` (the memtable handed to `SSTable::write`, and the staging
  buffer of `merge_two`) is embedded as a strictly key-sorted association
  list with insert-replaces-equal-key (`mtInsert`); `HashMap` is embedded
  by the same association-list type, joined with the same insert, since
  only its map semantics (never its iteration order) is observable in the
  embedded code paths.
* Rust panics (the overflow panic in `set`, the division by zero in
  `parallel_search` when the catalog is empty, and the out-of-range
  chunk slice in `parallel_search` when a worker's start index exceeds
  the catalog length) are modelled by the `PRes.panicked` constructor of
  an explicit result type.
* The filesystem is modelled as an explicit list of files threaded
  through the operations that touch it (flush, compaction, discovery).
  Paths are lists of byte-string components; the random UUID in a fresh
  SST filename is replaced by a freshness counter (the disk size), which
  models exactly the property used of it: distinctness of fresh names.
-/

/-- Byte strings: keys and values of the store. -/
abbrev Bytes := List Nat

/-- A record of an SSTable data file: a key paired with a value. -/
abbrev Rec := Bytes × Bytes

/-- Modelled from the spec: the tombstone sentinel of
`src/sstable/constants.rs`, which is not under `src/`.  The spec (§3)
describes "a fixed byte sequence not expected to collide with user
values — e.g., the ASCII string `"~tombstone~"`"; we use those ASCII
bytes.  No claim depends on the particular bytes, only on the sentinel
being one fixed byte string. -/
def TOMBSTONE : Bytes := [126, 116, 111, 109, 98, 115, 116, 111, 110, 101, 126]

/-- Byte-wise unsigned lexicographic comparison of byte strings: the
comparison performed by `key.cmp(&current_key)` on `Vec<u8>` in Rust. -/
def compareBytes : Bytes → Bytes → Ordering
  | [], [] => .eq
  | [], _ :: _ => .lt
  | _ :: _, [] => .gt
  | a :: as_, b :: bs => if a < b then .lt else if b < a then .gt else compareBytes as_ bs

theorem compareBytes_self (a : Bytes) : compareBytes a a = .eq := by
  induction a with
  | nil => rfl
  | cons x xs ih => simp [compareBytes, ih]

theorem compareBytes_eq_iff {a b : Bytes} : compareBytes a b = .eq ↔ a = b := by
  constructor
  · intro h
    induction a generalizing b with
    | nil => cases b with
      | nil => rfl
      | cons y ys => simp [compareBytes] at h
    | cons x xs ih =>
      cases b with
      | nil => simp [compareBytes] at h
      | cons y ys =>
        by_cases hxy : x < y
        · simp [compareBytes, hxy] at h
        · by_cases hyx : y < x
          · simp [compareBytes, hxy, hyx] at h
          · have hx : x = y := Nat.le_antisymm (Nat.le_of_not_lt hyx) (Nat.le_of_not_lt hxy)
            simp [compareBytes, hxy, hyx] at h
            rw [hx, ih h]
  · intro h; subst h; exact compareBytes_self a

theorem compareBytes_ne_of_lt {a b : Bytes} (h : compareBytes a b = .lt) : a ≠ b := by
  intro he; subst he; rw [compareBytes_self a] at h; cases h

theorem compareBytes_gt_iff {a b : Bytes} :
    compareBytes a b = .gt ↔ compareBytes b a = .lt := by
  induction a generalizing b with
  | nil => cases b <;> simp [compareBytes]
  | cons x xs ih =>
    cases b with
    | nil => simp [compareBytes]
    | cons y ys =>
      by_cases hxy : x < y
      · have : ¬ y < x := Nat.lt_asymm hxy
        simp [compareBytes, hxy, this]
      · by_cases hyx : y < x
        · simp [compareBytes, hxy, hyx]
        · simp [compareBytes, hxy, hyx, ih]

theorem compareBytes_lt_trans {a b c : Bytes}
    (hab : compareBytes a b = .lt) (hbc : compareBytes b c = .lt) :
    compareBytes a c = .lt := by
  induction a generalizing b c with
  | nil =>
    cases b with
    | nil => cases hab
    | cons y ys =>
      cases c with
      | nil => cases hbc
      | cons z zs => rfl
  | cons x xs ih =>
    cases b with
    | nil => cases hab
    | cons y ys =>
      cases c with
      | nil => cases hbc
      | cons z zs =>
        by_cases hxy : x < y
        · by_cases hyz : y < z
          · simp [compareBytes, Nat.lt_trans hxy hyz]
          · by_cases hzy : z < y
            · simp [compareBytes, hyz, hzy] at hbc
            · have : y = z := Nat.le_antisymm (Nat.le_of_not_lt hzy) (Nat.le_of_not_lt hyz)
              subst this
              simp [compareBytes, hxy]
        · by_cases hyx : y < x
          · simp [compareBytes, hxy, hyx] at hab
          · have hx : x = y := Nat.le_antisymm (Nat.le_of_not_lt hyx) (Nat.le_of_not_lt hxy)
            subst hx
            by_cases hxz : x < z
            · simp [compareBytes, hxz]
            · by_cases hzx : z < x
              · simp [compareBytes, hxz, hzx] at hbc
              · have : x = z := Nat.le_antisymm (Nat.le_of_not_lt hzx) (Nat.le_of_not_lt hxz)
                subst this
                simp [compareBytes, hxz] at hbc ⊢
                exact ih (by simpa [compareBytes, hxy] using hab) hbc

/-- The strict key order of records: the first record's key is strictly
below the second's in byte-wise order. -/
def recLt (p q : Rec) : Prop := compareBytes p.1 q.1 = .lt

instance : DecidableRel recLt := fun p q => by
  unfold recLt; infer_instance

/-- Invariant I1 of the spec: the records of an SSTable (and of any
`BTreeMap`-like sorted association list) carry strictly increasing keys. -/
def recSorted (l : List Rec) : Prop := List.Pairwise recLt l

instance (l : List Rec) : Decidable (recSorted l) := by
  unfold recSorted; infer_instance

/-- Association-list lookup: the map semantics of both `HashMap::get`
and `BTreeMap::get` on the embedded representation. -/
def mtGet (k : Bytes) : List Rec → Option Bytes
  | [] => none
  | (k', v) :: rest => if k' = k then some v else mtGet k rest

/-- Sorted-association-list insert with replacement on an equal key:
the embedding of `BTreeMap::insert` (and of `HashMap::insert`, whose
iteration order is never observed in the embedded code). -/
def mtInsert (k v : Bytes) : List Rec → List Rec
  | [] => [(k, v)]
  | (k', v') :: rest =>
    match compareBytes k k' with
    | .lt => (k, v) :: (k', v') :: rest
    | .eq => (k, v) :: rest
    | .gt => (k', v') :: mtInsert k v rest

/-- Removal of a key: the embedding of `HashMap::remove`. -/
def mtErase (k : Bytes) : List Rec → List Rec
  | [] => []
  | (k', v') :: rest => if k' = k then rest else (k', v') :: mtErase k rest

theorem mtGet_insert_self (k v : Bytes) (m : List Rec) :
    mtGet k (mtInsert k v m) = some v := by
  induction m with
  | nil => simp [mtInsert, mtGet]
  | cons p rest ih =>
    obtain ⟨k', v'⟩ := p
    rcases hc : compareBytes k k' with _ | _ | _
    · simp [mtInsert, hc, mtGet]
    · simp [mtInsert, hc, mtGet]
    · have hne : k' ≠ k := by
        intro he; subst he; rw [compareBytes_self] at hc; cases hc
      simp [mtInsert, hc, mtGet, hne, ih]

theorem mtGet_insert_other {k k2 : Bytes} (hne : k ≠ k2) (v : Bytes) (m : List Rec) :
    mtGet k2 (mtInsert k v m) = mtGet k2 m := by
  induction m with
  | nil => simp [mtInsert, mtGet, hne]
  | cons p rest ih =>
    obtain ⟨k', v'⟩ := p
    rcases hc : compareBytes k k' with _ | _ | _
    · simp [mtInsert, hc, mtGet, hne]
    · have hk : k = k' := compareBytes_eq_iff.mp hc
      subst hk
      simp [mtGet, hne, mtInsert, hc]
    · simp [mtInsert, hc, mtGet, ih]

theorem mem_mtInsert {p : Rec} {k v : Bytes} {m : List Rec}
    (h : p ∈ mtInsert k v m) : p = (k, v) ∨ p ∈ m := by
  induction m with
  | nil => simpa [mtInsert] using h
  | cons q rest ih =>
    obtain ⟨k', v'⟩ := q
    rcases hc : compareBytes k k' with _ | _ | _ <;> simp [mtInsert, hc] at h
    · rcases h with h | h | h
      · exact Or.inl h
      · exact Or.inr (by simp [h])
      · exact Or.inr (by simp [h])
    · rcases h with h | h
      · exact Or.inl h
      · exact Or.inr (by simp [h])
    · rcases h with h | h
      · exact Or.inr (by simp [h])
      · rcases ih h with h' | h'
        · exact Or.inl h'
        · exact Or.inr (by simp [h'])

theorem mtInsert_sorted {m : List Rec} (hs : recSorted m) (k v : Bytes) :
    recSorted (mtInsert k v m) := by
  induction m with
  | nil => simp [mtInsert, recSorted]
  | cons q rest ih =>
    obtain ⟨k', v'⟩ := q
    rcases hs with ⟨⟩ | ⟨hq, hrest⟩
    rcases hc : compareBytes k k' with _ | _ | _
    · have hrw : mtInsert k v ((k', v') :: rest) = (k, v) :: (k', v') :: rest := by
        simp [mtInsert, hc]
      unfold recSorted
      rw [hrw]
      refine List.Pairwise.cons ?_ (List.Pairwise.cons hq hrest)
      intro p hp
      rcases List.mem_cons.mp hp with hp | hp
      · subst hp
        exact hc
      · exact compareBytes_lt_trans hc (hq p hp)
    · have hk : k = k' := compareBytes_eq_iff.mp hc
      subst hk
      have hrw : mtInsert k v ((k, v') :: rest) = (k, v) :: rest := by
        simp [mtInsert, hc]
      unfold recSorted
      rw [hrw]
      exact List.Pairwise.cons hq hrest
    · have hrw : mtInsert k v ((k', v') :: rest) = (k', v') :: mtInsert k v rest := by
        simp [mtInsert, hc]
      unfold recSorted
      rw [hrw]
      refine List.Pairwise.cons ?_ (ih hrest)
      intro p hp
      rcases mem_mtInsert hp with hp' | hp'
      · subst hp'
        exact compareBytes_gt_iff.mp hc
      · exact hq p hp'

/-- If every key in `m` is strictly below `k`, inserting `(k, v)` appends. -/
theorem mtInsert_append {m : List Rec} {k : Bytes}
    (h : ∀ p ∈ m, compareBytes p.1 k = .lt) (v : Bytes) :
    mtInsert k v m = m ++ [(k, v)] := by
  induction m with
  | nil => simp [mtInsert]
  | cons q rest ih =>
    obtain ⟨k', v'⟩ := q
    have hq : compareBytes k' k = .lt := h (k', v') (by simp)
    have hc : compareBytes k k' = .gt := compareBytes_gt_iff.mpr hq
    simp [mtInsert, hc]
    exact ih (fun p hp => h p (by simp [hp]))

theorem mtGet_mem {k : Bytes} {v : Bytes} {m : List Rec}
    (h : mtGet k m = some v) : (k, v) ∈ m := by
  induction m with
  | nil => simp [mtGet] at h
  | cons q rest ih =>
    obtain ⟨k', v'⟩ := q
    by_cases he : k' = k
    · subst he
      simp [mtGet] at h
      simp [h]
    · simp [mtGet, he] at h
      simp [ih h]

theorem mtGet_eq_none_iff {k : Bytes} {m : List Rec} :
    mtGet k m = none ↔ ∀ p ∈ m, p.1 ≠ k := by
  induction m with
  | nil => simp [mtGet]
  | cons q rest ih =>
    obtain ⟨k', v'⟩ := q
    by_cases he : k' = k
    · subst he; simp [mtGet]
    · simp [mtGet, he, ih]

theorem mtGet_eq_some_of_mem {k v : Bytes} {m : List Rec}
    (hs : recSorted m) (h : (k, v) ∈ m) : mtGet k m = some v := by
  induction m with
  | nil => simp at h
  | cons q rest ih =>
    obtain ⟨k', v'⟩ := q
    rcases hs with ⟨⟩ | ⟨hq, hrest⟩
    rcases List.mem_cons.mp h with h1 | h1
    · cases h1
      simp [mtGet]
    · have hne : k' ≠ k := compareBytes_ne_of_lt (hq (k, v) h1)
      simp [mtGet, hne, ih hrest h1]

/-- Path components and file names are byte strings, so a path is a
list of byte strings. -/
abbrev PathComp := Bytes

/-- The `RKV` constant of `src/sstable/constants.rs` (the `<ext>`
sentinel `"rkv"`), as ASCII bytes. -/
def RKVB : PathComp := [114, 107, 118]

/-- The `"dat"` directory component used by `discover_sstables`. -/
def DATB : PathComp := [100, 97, 116]

/-- The `"data"` directory component used by `create_sstable`. -/
def DATAB : PathComp := [100, 97, 116, 97]

/-- An SSTable handle: the path of its data file together with the
decoded records of that file, in file order (the sibling index file is
dense, one offset per record, so it is determined by the record list;
`SSTable::delete` also removes it, which the model subsumes in removing
the file entry). -/
structure SSTable where
  dat : List PathComp
  records : List Rec
deriving DecidableEq

/-- A file of the modelled filesystem: its path and its decoded records. -/
structure DFile where
  path : List PathComp
  content : List Rec
deriving DecidableEq

/-- The filesystem, as the list of existing data files.  (Index files
are siblings determined by the data files and are not tracked.) -/
abbrev Disk := List DFile

/-- `SSTable::search` of `src/sstable/sst.rs`, lines 120–153: binary
search over the index range `[start, fin)` with the vestigial
"peek at mid+1" duplicate branch.  The loop is embedded with explicit
fuel; `fin - start` shrinks every iteration, so any `fuel ≥ fin - start`
makes the fuel case unreachable (proved in the lemmas below).
`futil::key_value_at mid` is indexing into the record list. -/
def searchAux (recs : List Rec) (key : Bytes) : Nat → Nat → Nat → Option Bytes
  | 0, _, _ => none
  | fuel + 1, start, fin =>
    if start < fin then
      let mid := start + (fin - start) / 2
      let ckv := recs.getD mid ([], [])
      match compareBytes key ckv.1 with
      | .lt => searchAux recs key fuel start mid
      | .eq =>
        if ckv.2 = TOMBSTONE then none
        else if mid + 1 < fin then
          if (recs.getD (mid + 1) ([], [])).1 ≠ key then some ckv.2
          else searchAux recs key fuel (mid + 1) fin
        else some ckv.2
      | .gt => searchAux recs key fuel (mid + 1) fin
    else none

/-- `SSTable::search`: the binary search over the full index range,
`futil::get_index_range` being `(0, records.length)` for a dense index. -/
def SSTable.search (t : SSTable) (key : Bytes) : Option Bytes :=
  searchAux t.records key t.records.length 0 t.records.length

/-- One step of `SSTable::as_hashmap` of `src/sstable/sstable.rs`,
lines 77–93: a record is inserted into the accumulated map unless its
value is the tombstone. -/
def hmStep (m : List Rec) (p : Rec) : List Rec :=
  if p.2 = TOMBSTONE then m else mtInsert p.1 p.2 m

/-- `SSTable::as_hashmap`: scan the data file front to back, skipping
tombstone records. -/
def SSTable.asHashmap (t : SSTable) : List Rec :=
  t.records.foldl hmStep []

/-- `HashMap::extend`: every entry of the second map inserted into the
first, the second map's entries overwriting on key collisions. -/
def mtExtend (acc m : List Rec) : List Rec :=
  m.foldl (fun a p => mtInsert p.1 p.2 a) acc

/-- `SSTable::write` of `src/sstable/sst.rs`, lines 100–115: seek to the
end of the data (and index) file and append one record per map entry,
in ascending key order — which is the list order of the embedded
`BTreeMap`.  Returns the updated handle; the disk is updated by the
callers that track it. -/
def SSTable.write (t : SSTable) (entries : List Rec) : SSTable :=
  { t with records := t.records ++ entries }

/-- Scan of one chunk of the catalog by one `parallel_search` worker
(`src/store/lsm_store.rs`, lines 195–221): the indices of the chunk are
visited oldest-first; the first SSTable whose `search` hits ends the
scan — with the worker's tombstone check, which returns without
recording a result.  (`SSTable::search` never actually returns the
tombstone, so that check is dead code; it is kept here faithfully.) -/
def chunkFirstHit (ssts : List SSTable) (k : Bytes) : List Nat → Option (Nat × Bytes)
  | [] => none
  | j :: rest =>
    match (ssts.getD j ⟨[], []⟩).search k with
    | some v => if v = TOMBSTONE then none else some (j, v)
    | none => chunkFirstHit ssts k rest

/-- The kinds of panic the embedded code can raise. -/
inductive PanicKind where
  /-- `parallel_search` computes `(n + n_threads - 1) / n_threads` with
  `n_threads = min(catalog_len, 10) = 0` when the catalog is empty:
  a division by zero (after an unsigned subtraction overflow). -/
  | emptyCatalogDiv
  /-- A `parallel_search` worker slices `&sstables[start..end]` with
  `start = i * chunk_size` and `end = min(start + chunk_size, n)`; when
  `start > n` the slice has `start > end` and slicing panics.  The panic
  propagates to the caller through `handle.join().expect(...)`. -/
  | sliceOutOfRange
  /-- The `set` overflow panic: "Store size should be greater than …". -/
  | pairOverBudget
deriving DecidableEq

/-- Results of operations that can panic. -/
inductive PRes (α : Type) where
  | panicked (k : PanicKind)
  | ok (a : α)
deriving DecidableEq

/-- `parallel_search` of `src/store/lsm_store.rs`, lines 176–231.

The threads' per-iteration critical sections are serialized by the
`last_index` mutex, whose recorded index only increases and is always
the index of the latest `result` write, so the function's outcome is
the hit with the largest index among the chunk-wise first hits:
a worker can only be pruned (`last_index >= start + j`) by a recorded
hit from a chunk at a higher index, whose own candidate dominates every
index of the pruned chunk.  The outcome is therefore schedule
independent and is computed here as the last chunk candidate in chunk
order (chunk candidates' indices increase with the chunk index).

With an empty catalog the chunk-size computation divides by zero.  With
a non-empty catalog whose size makes some worker's `start = i * chunk_size`
exceed the catalog length (e.g. 11 ≤ n ≤ 17, where `chunk_size = 2` and
worker 6 slices `&sstables[12..n]`), that worker's slice expression
panics (`start > end`), before any lock is taken, and the panic reaches
the caller through `handle.join().expect(...)`; the whole call therefore
panics, which the model reports as `sliceOutOfRange`. -/
def parallelSearch (ssts : List SSTable) (k : Bytes) : PRes (Option Bytes) :=
  if ssts.length = 0 then .panicked .emptyCatalogDiv
  else
    let n := ssts.length
    let nT := min n 10
    let c := (n + nT - 1) / nT
    if (List.range nT).any (fun i => decide (n < i * c)) then
      .panicked .sliceOutOfRange
    else
      let cands := (List.range nT).filterMap fun i =>
        chunkFirstHit ssts k (List.range' (i * c) (min (i * c + c) n - i * c))
      .ok (cands.getLast?.map (·.2))

/-- The LSM store of `src/store/lsm_store.rs`.  The memtable is the
key-sorted association list standing for the in-memory map. -/
structure KVStore where
  memtable : List Rec
  mem_size : Nat
  max_bytes : Nat
  sstables : List SSTable
  sstable_dir : List PathComp
deriving DecidableEq

/-- `discover_sstables` (lines 62–81): glob `<dir>/rkv/dat/*.rkv` and
build an `SSTable` handle per matching data file, in filename-sorted
order — which the model takes as the disk-list order.  A path matches
when its directory part is `<dir>/rkv/dat`; the model keeps the
`*.rkv` extension constraint implicit in the fact that every modelled
data file has it. -/
def discoverSSTables (sstable_dir : List PathComp) (d : Disk) : List SSTable :=
  (d.filter fun f => f.path.dropLast = sstable_dir ++ [RKVB, DATB]).map
    fun f => { dat := f.path, records := f.content }

/-- `KVStore::new` (lines 37–47): build the store with an empty
memtable, zero byte count and an EMPTY catalog, then call
`discover_sstables` — whose returned vector is dropped on the floor,
so the catalog stays empty. -/
def KVStore.new (size : Nat) (sstable_dir : List PathComp) (d : Disk) : KVStore :=
  let store : KVStore :=
    { memtable := [], mem_size := 0, max_bytes := size,
      sstables := [], sstable_dir := sstable_dir }
  let _discovered := discoverSSTables store.sstable_dir d
  store

/-- `is_overflow` (lines 49–51). -/
def KVStore.is_overflow (s : KVStore) : Prop := s.max_bytes < s.mem_size

instance (s : KVStore) : Decidable s.is_overflow := by
  unfold KVStore.is_overflow; infer_instance

/-- `get_sstables_count` (lines 54–56). -/
def KVStore.get_sstables_count (s : KVStore) : Nat := s.sstables.length

/-- `size` (lines 166–168). -/
def KVStore.size (s : KVStore) : Nat := s.mem_size

/-- `create_sstable` (lines 233–241): a fresh SSTable named
`<n_sstables+1>-<uuid>.rkv` under `<dir>/rkv/data/`.  The random UUID is
replaced by the freshness counter `uniq` (the callers pass the disk
size), which models the only property the code uses of it. -/
def create_sstable (n_sstables : Nat) (sstable_dir : List PathComp) (uniq : Nat) : SSTable :=
  { dat := sstable_dir ++ [RKVB, DATAB, [n_sstables + 1, uniq]], records := [] }

/-- `flush_memtable` (lines 112–119): write the memtable into a fresh
SSTable (ascending key order — the order of the sorted association
list), push it at the catalog tail, and reset memtable and byte count. -/
def KVStore.flush_memtable (s : KVStore) (d : Disk) : KVStore × Disk :=
  let t := create_sstable s.sstables.length s.sstable_dir d.length
  let t' := t.write s.memtable
  ({ s with sstables := s.sstables ++ [t'], memtable := [], mem_size := 0 },
   d ++ [{ path := t'.dat, content := t'.records }])

/-- `set` (lines 122–142): grow the byte count by `len k + len v`;
panic if that overflows the budget while the memtable is empty; flush
first if it overflows otherwise; then insert into the memtable.  The
byte count of the pair inserted after a flush is not re-added (the
counter was reset to zero by the flush), exactly as in the source. -/
def KVStore.set (s : KVStore) (d : Disk) (k v : Bytes) : PRes (KVStore × Disk) :=
  let ms := s.mem_size + (k.length + v.length)
  if s.max_bytes < ms ∧ s.memtable = [] then .panicked .pairOverBudget
  else if s.max_bytes < ms then
    let sd := KVStore.flush_memtable { s with mem_size := ms } d
    .ok ({ sd.1 with memtable := mtInsert k v sd.1.memtable }, sd.2)
  else .ok ({ s with mem_size := ms, memtable := mtInsert k v s.memtable }, d)

/-- `get` (lines 145–153): memtable first (a tombstone there answers
`None`), else `parallel_search` over the catalog. -/
def KVStore.get (s : KVStore) (k : Bytes) : PRes (Option Bytes) :=
  match mtGet k s.memtable with
  | some v => .ok (if v = TOMBSTONE then none else some v)
  | none => parallelSearch s.sstables k

/-- `delete` (lines 156–163): if the key is in the memtable it is just
removed; otherwise a tombstone is written only when `parallel_search`
finds the key in the catalog. -/
def KVStore.delete (s : KVStore) (k : Bytes) : PRes KVStore :=
  match mtGet k s.memtable with
  | some _ => .ok { s with memtable := mtErase k s.memtable }
  | none =>
    match parallelSearch s.sstables k with
    | .panicked e => .panicked e
    | .ok (some _) => .ok { s with memtable := mtInsert k TOMBSTONE s.memtable }
    | .ok none => .ok s

/-- Remove a file (and its untracked index sibling) from the disk:
`SSTable::delete`. -/
def diskDelete (d : Disk) (t : SSTable) : Disk :=
  d.filter fun f => f.path ≠ t.dat

/-- The `store` map built by the free `compaction` function: the
`as_hashmap` views of all catalog SSTables, oldest first, each extended
over the previous ones (so the newest SSTable wins on key collisions). -/
def compactStore (ssts : List SSTable) : List Rec :=
  ssts.foldl (fun acc t => mtExtend acc t.asHashmap) []

/-- The free function `compaction` (lines 243–264): union all catalog
SSTables' `as_hashmap` views (newest extended last, so newest wins;
tombstone records were dropped by `as_hashmap`), write the union into a
fresh SSTable in ascending key order (the sorted association list is
the `BTreeMap` iteration order; the locally sorted `keys` vector of the
source is dead code), then delete every input file. -/
def compactionFn (ssts : List SSTable) (sstable_dir : List PathComp) (d : Disk) :
    SSTable × Disk :=
  let store := compactStore ssts
  let t := create_sstable ssts.length sstable_dir d.length
  let t' := t.write store
  let d1 := d ++ [{ path := t'.dat, content := t'.records }]
  (t', ssts.foldl diskDelete d1)

/-- `KVStore::compaction` (lines 96–109): run the free `compaction` on a
clone of the catalog (on a worker thread that is immediately joined) and
replace the whole catalog by the single combined SSTable — with no
guard on the catalog size. -/
def KVStore.compaction (s : KVStore) (d : Disk) : KVStore × Disk :=
  let td := compactionFn s.sstables s.sstable_dir d
  ({ s with sstables := [td.1] }, td.2)

/-- One staging step of `merge_two` (`src/sstable/sst.rs`): insert the
pair into the `BTreeMap` staging buffer, then flush the buffer to the
out-SSTable (append of the buffer in ascending key order) and clear it
when its size exceeds `log_size`.  The state is `(buffer, written)`. -/
def stage (cap : Nat) (p : Rec) : List Rec × List Rec → List Rec × List Rec
  | (buf, out) =>
    let buf' := mtInsert p.1 p.2 buf
    if cap < buf'.length then ([], out ++ buf') else (buf', out)

/-- The main cursor loop of `merge_two` (lines 181–205): while both
inputs have records left, stage the smaller key — the NEW side's pair on
equal keys — and advance the cursors.  Embedded with fuel; every
iteration consumes at least one input record, so
`fuel ≥ |os| + |ns|` makes the fuel case unreachable.  Returns the
staging state and the two unconsumed suffixes. -/
def mergeMain (cap : Nat) :
    Nat → List Rec → List Rec → List Rec × List Rec →
    (List Rec × List Rec) × List Rec × List Rec
  | 0, os, ns, bo => (bo, os, ns)
  | _ + 1, [], ns, bo => (bo, [], ns)
  | _ + 1, os, [], bo => (bo, os, [])
  | fuel + 1, (ko, vo) :: os, (kn, vn) :: ns, bo =>
    match compareBytes ko kn with
    | .lt => mergeMain cap fuel os ((kn, vn) :: ns) (stage cap (ko, vo) bo)
    | .eq => mergeMain cap fuel os ns (stage cap (kn, vn) bo)
    | .gt => mergeMain cap fuel ((ko, vo) :: os) ns (stage cap (kn, vn) bo)

/-- The two drain loops of `merge_two` (lines 207–225): stage every
remaining record of the unexhausted input. -/
def drainLoop (cap : Nat) : List Rec → List Rec × List Rec → List Rec × List Rec
  | [], bo => bo
  | p :: rest, bo => drainLoop cap rest (stage cap p bo)

/-- `merge_two` (lines 166–229): cursor-merge `old` and `new` into the
out-SSTable through the chunked staging buffer, with the final
`write(&map)` of whatever remains in the buffer.  The result is the
record list of the out-SSTable (initially empty, appended in chunks). -/
def merge_two (old new : SSTable) (log_size : Nat) : List Rec :=
  let bo1 := mergeMain log_size (old.records.length + new.records.length)
    old.records new.records ([], [])
  let bo2 := drainLoop log_size bo1.2.1 bo1.1
  let bo3 := drainLoop log_size bo1.2.2 bo2
  bo3.2 ++ bo3.1

/-- The key stored at index `i` of a record list. -/
def keyAt (recs : List Rec) (i : Nat) : Bytes := (recs.getD i ([], [])).1

/-- The lookup behaviour the spec ascribes to `SSTable::search` (§4.2):
the value of the unique record for the key, with a tombstone record and
an absent key both answering `None`.  This is the spec-side description,
to be compared with the binary search embedded from the source. -/
def searchSpecLookup (recs : List Rec) (k : Bytes) : Option Bytes :=
  match mtGet k recs with
  | some v => if v = TOMBSTONE then none else some v
  | none => none

theorem recSorted_keyAt_lt {recs : List Rec} (hs : recSorted recs)
    {i j : Nat} (hij : i < j) (hj : j < recs.length) :
    compareBytes (keyAt recs i) (keyAt recs j) = .lt := by
  have hi : i < recs.length := Nat.lt_trans hij hj
  have h2 := (List.pairwise_iff_get.mp hs) ⟨i, hi⟩ ⟨j, hj⟩ hij
  have e1 : keyAt recs i = (recs.get ⟨i, hi⟩).1 := by
    simp [keyAt, List.getD_eq_getElem?_getD, List.getElem?_eq_getElem hi]
  have e2 : keyAt recs j = (recs.get ⟨j, hj⟩).1 := by
    simp [keyAt, List.getD_eq_getElem?_getD, List.getElem?_eq_getElem hj]
  rw [e1, e2]
  exact h2

theorem mtGet_eq_none_of_window {recs : List Rec} {k : Bytes} {start fin : Nat}
    (hse : fin ≤ start)
    (hlo : ∀ i, i < start → i < recs.length → compareBytes (keyAt recs i) k = .lt)
    (hhi : ∀ i, fin ≤ i → i < recs.length → compareBytes k (keyAt recs i) = .lt) :
    mtGet k recs = none := by
  rw [mtGet_eq_none_iff]
  intro p hp
  obtain ⟨i, hg⟩ := List.mem_iff_get.mp hp
  rw [List.get_eq_getElem] at hg
  have hkey : keyAt recs i.1 = p.1 := by
    simp [keyAt, List.getD_eq_getElem?_getD, List.getElem?_eq_getElem i.2, hg]
  by_cases hi : i.1 < start
  · have := hlo i.1 hi i.2
    rw [hkey] at this
    exact compareBytes_ne_of_lt this
  · have := hhi i.1 (by omega) i.2
    rw [hkey] at this
    exact fun he => compareBytes_ne_of_lt this he.symm

theorem searchAux_correct {recs : List Rec} {k : Bytes} (hs : recSorted recs) :
    ∀ fuel start fin, fin ≤ recs.length → fin - start ≤ fuel →
    (∀ i, i < start → i < recs.length → compareBytes (keyAt recs i) k = .lt) →
    (∀ i, fin ≤ i → i < recs.length → compareBytes k (keyAt recs i) = .lt) →
    searchAux recs k fuel start fin = searchSpecLookup recs k := by
  intro fuel
  induction fuel with
  | zero =>
    intro start fin hfin hfuel hlo hhi
    have hse : fin ≤ start := by omega
    rw [searchAux, searchSpecLookup, mtGet_eq_none_of_window hse hlo hhi]
  | succ fuel ih =>
    intro start fin hfin hfuel hlo hhi
    by_cases hlt : start < fin
    · have hds : (fin - start) / 2 < fin - start :=
        Nat.div_lt_self (by omega) (by omega)
      rw [searchAux]
      simp only [if_pos hlt]
      set mid := start + (fin - start) / 2 with hmid
      have hmidlt : mid < fin := by omega
      have hmidlen : mid < recs.length := by omega
      rcases hc : compareBytes k (keyAt recs mid) with _ | _ | _
      · -- key < key(mid): recurse on [start, mid)
        have hhi' : ∀ i, mid ≤ i → i < recs.length →
            compareBytes k (keyAt recs i) = .lt := by
          intro i hi hilen
          rcases Nat.eq_or_lt_of_le hi with he | hlt'
          · rw [← he]; exact hc
          · exact compareBytes_lt_trans hc (recSorted_keyAt_lt hs hlt' hilen)
        have hc2 : compareBytes k (List.getD recs mid ([], [])).1 = Ordering.lt := hc
        simp only [hc2]
        exact ih start mid (by omega) (by omega) hlo hhi'
      · -- key = key(mid): hit at mid
        have hk : k = keyAt recs mid := compareBytes_eq_iff.mp hc
        have hmem : List.getD recs mid ([], []) ∈ recs := by
          rw [List.getD_eq_getElem _ _ hmidlen]
          exact List.getElem_mem hmidlen
        have hget : mtGet k recs = some (List.getD recs mid ([], [])).2 := by
          apply mtGet_eq_some_of_mem hs
          have hk2 : k = (List.getD recs mid ([], [])).1 := hk
          rw [hk2]
          simpa using hmem
        have hc2 : compareBytes k (List.getD recs mid ([], [])).1 = Ordering.eq := hc
        simp only [hc2]
        rw [searchSpecLookup, hget]
        by_cases htomb : (List.getD recs mid (([] : Bytes), ([] : Bytes))).2 = TOMBSTONE
        · simp only [List.getD_eq_getElem?_getD] at htomb
          simp [htomb]
        · by_cases hnext : mid + 1 < fin
          · have hne : (List.getD recs (mid + 1) (([] : Bytes), ([] : Bytes))).1 ≠ k := by
              have hlt2 := recSorted_keyAt_lt hs (Nat.lt_succ_self mid)
                (show mid + 1 < recs.length by omega)
              rw [← hk] at hlt2
              intro he
              exact compareBytes_ne_of_lt hlt2 he.symm
            simp only [List.getD_eq_getElem?_getD] at htomb hne
            simp [htomb, hnext, hne]
          · simp only [List.getD_eq_getElem?_getD] at htomb
            simp [htomb, hnext]
      · -- key > key(mid): recurse on [mid+1, fin)
        have hmidk : compareBytes (keyAt recs mid) k = .lt := compareBytes_gt_iff.mp hc
        have hlo' : ∀ i, i < mid + 1 → i < recs.length →
            compareBytes (keyAt recs i) k = .lt := by
          intro i hi hilen
          rcases Nat.eq_or_lt_of_le (Nat.lt_succ_iff.mp hi) with he | hlt'
          · rw [he]; exact hmidk
          · exact compareBytes_lt_trans (recSorted_keyAt_lt hs hlt' hmidlen) hmidk
        have hc2 : compareBytes k (List.getD recs mid ([], [])).1 = Ordering.gt := hc
        simp only [hc2]
        exact ih (mid + 1) fin (by omega) (by omega) hlo' hhi
    · have hse : fin ≤ start := by omega
      rw [searchAux, searchSpecLookup, mtGet_eq_none_of_window hse hlo hhi]
      simp [hlt]

/-- `SSTable::search` computes the spec lookup on any SSTable whose keys
are strictly increasing (invariant I1). -/
theorem search_eq_searchSpecLookup {t : SSTable} (hs : recSorted t.records) (k : Bytes) :
    t.search k = searchSpecLookup t.records k :=
  searchAux_correct hs t.records.length 0 t.records.length
    (Nat.le_refl _) (by omega)
    (fun i hi _ => absurd hi (Nat.not_lt_zero i))
    (fun i hfin hlen => absurd hlen (Nat.not_lt.mpr hfin))

theorem search_ne_tombstone {t : SSTable} (hs : recSorted t.records) {k v : Bytes}
    (h : t.search k = some v) : v ≠ TOMBSTONE := by
  rw [search_eq_searchSpecLookup hs, searchSpecLookup] at h
  rcases hg : mtGet k t.records with _ | w
  · rw [hg] at h; cases h
  · rw [hg] at h
    by_cases ht : w = TOMBSTONE
    · simp [ht] at h
    · simp [ht] at h
      exact h ▸ ht

/-- No value of the map is the tombstone sentinel. -/
def noTomb (m : List Rec) : Prop := ∀ p ∈ m, p.2 ≠ TOMBSTONE

theorem mtInsert_noTomb {m : List Rec} {k v : Bytes}
    (hm : noTomb m) (hv : v ≠ TOMBSTONE) : noTomb (mtInsert k v m) := by
  intro p hp
  rcases mem_mtInsert hp with h | h
  · subst h; exact hv
  · exact hm p h

theorem foldl_hmStep_sorted :
    ∀ (recs : List Rec) {acc : List Rec}, recSorted acc →
    recSorted (recs.foldl hmStep acc) := by
  intro recs
  induction recs with
  | nil => intro acc h; exact h
  | cons p rest ih =>
    intro acc h
    rw [List.foldl_cons]
    apply ih
    unfold hmStep
    by_cases ht : p.2 = TOMBSTONE
    · simp [ht, h]
    · simp only [if_neg ht]
      exact mtInsert_sorted h p.1 p.2

theorem foldl_hmStep_noTomb :
    ∀ (recs : List Rec) {acc : List Rec}, noTomb acc →
    noTomb (recs.foldl hmStep acc) := by
  intro recs
  induction recs with
  | nil => intro acc h; exact h
  | cons p rest ih =>
    intro acc h
    rw [List.foldl_cons]
    apply ih
    unfold hmStep
    by_cases ht : p.2 = TOMBSTONE
    · simp [ht, h]
    · simp only [if_neg ht]
      exact mtInsert_noTomb h ht

theorem foldl_hmStep_frame {k : Bytes} :
    ∀ {recs : List Rec}, (∀ p ∈ recs, p.1 ≠ k) → ∀ acc,
    mtGet k (recs.foldl hmStep acc) = mtGet k acc := by
  intro recs
  induction recs with
  | nil => intro _ acc; rfl
  | cons p rest ih =>
    intro h acc
    rw [List.foldl_cons, ih (fun q hq => h q (List.mem_cons_of_mem p hq))]
    unfold hmStep
    by_cases ht : p.2 = TOMBSTONE
    · simp [ht]
    · simp only [if_neg ht]
      exact mtGet_insert_other (h p (List.mem_cons_self p rest)) p.2 acc

theorem foldl_hmStep_lookup {k : Bytes} :
    ∀ {recs : List Rec}, recSorted recs → ∀ acc,
    mtGet k (recs.foldl hmStep acc) =
      (match mtGet k recs with
       | some v => if v = TOMBSTONE then mtGet k acc else some v
       | none => mtGet k acc) := by
  intro recs
  induction recs with
  | nil => intro _ acc; simp [mtGet]
  | cons p rest ih =>
    intro hs acc
    obtain ⟨k', v'⟩ := p
    rcases hs with ⟨⟩ | ⟨hq, hrest⟩
    rw [List.foldl_cons]
    by_cases he : k' = k
    · subst he
      have hnin : ∀ q ∈ rest, q.1 ≠ k' := fun q hq' he2 =>
        compareBytes_ne_of_lt (hq q hq') he2.symm
      rw [foldl_hmStep_frame hnin]
      unfold hmStep
      by_cases ht : v' = TOMBSTONE
      · simp [mtGet, ht]
      · simp only [if_neg ht]
        simp [mtGet, ht, mtGet_insert_self]
    · rw [ih hrest]
      have hacc : mtGet k (hmStep acc (k', v')) = mtGet k acc := by
        unfold hmStep
        by_cases ht : v' = TOMBSTONE
        · simp [ht]
        · simp only [if_neg ht]
          exact mtGet_insert_other he v' acc
      simp [mtGet, he, hacc]

/-- `as_hashmap` looks keys up exactly as the spec lookup does: the value
of a non-tombstone record, nothing for a tombstone record or an absent
key (given strictly increasing keys, invariant I1). -/
theorem asHashmap_lookup {t : SSTable} (hs : recSorted t.records) (k : Bytes) :
    mtGet k t.asHashmap = searchSpecLookup t.records k := by
  rw [SSTable.asHashmap, foldl_hmStep_lookup hs, searchSpecLookup]
  rcases mtGet k t.records with _ | v
  · rfl
  · by_cases ht : v = TOMBSTONE <;> simp [ht, mtGet]

theorem asHashmap_sorted (t : SSTable) : recSorted t.asHashmap :=
  foldl_hmStep_sorted t.records List.Pairwise.nil

theorem asHashmap_noTomb (t : SSTable) : noTomb t.asHashmap :=
  foldl_hmStep_noTomb t.records (fun p hp => absurd hp (List.not_mem_nil p))

theorem mtExtend_sorted (m : List Rec) {acc : List Rec} (h : recSorted acc) :
    recSorted (mtExtend acc m) := by
  induction m generalizing acc with
  | nil => exact h
  | cons p rest ih =>
    rw [mtExtend, List.foldl_cons]
    exact ih (mtInsert_sorted h p.1 p.2)

theorem mtExtend_noTomb {m : List Rec} (hm : noTomb m) {acc : List Rec}
    (hacc : noTomb acc) : noTomb (mtExtend acc m) := by
  induction m generalizing acc with
  | nil => exact hacc
  | cons p rest ih =>
    rw [mtExtend, List.foldl_cons]
    exact ih (fun q hq => hm q (List.mem_cons_of_mem p hq))
      (mtInsert_noTomb hacc (hm p (List.mem_cons_self p rest)))

theorem mtExtend_frame {k : Bytes} :
    ∀ {m : List Rec}, (∀ p ∈ m, p.1 ≠ k) → ∀ acc,
    mtGet k (mtExtend acc m) = mtGet k acc := by
  intro m
  induction m with
  | nil => intro _ acc; rfl
  | cons p rest ih =>
    intro h acc
    rw [mtExtend, List.foldl_cons]
    rw [show (rest.foldl (fun a p => mtInsert p.1 p.2 a)
      (mtInsert p.1 p.2 acc)) = mtExtend (mtInsert p.1 p.2 acc) rest from rfl]
    rw [ih (fun q hq => h q (List.mem_cons_of_mem p hq))]
    exact mtGet_insert_other (h p (List.mem_cons_self p rest)) p.2 acc

theorem mtExtend_lookup {k : Bytes} :
    ∀ {m : List Rec}, recSorted m → ∀ acc,
    mtGet k (mtExtend acc m) =
      (match mtGet k m with
       | some v => some v
       | none => mtGet k acc) := by
  intro m
  induction m with
  | nil => intro _ acc; simp [mtExtend, mtGet]
  | cons p rest ih =>
    intro hs acc
    obtain ⟨k', v'⟩ := p
    rcases hs with ⟨⟩ | ⟨hq, hrest⟩
    rw [mtExtend, List.foldl_cons]
    rw [show (rest.foldl (fun a p => mtInsert p.1 p.2 a)
      (mtInsert k' v' acc)) = mtExtend (mtInsert k' v' acc) rest from rfl]
    by_cases he : k' = k
    · subst he
      have hnin : ∀ q ∈ rest, q.1 ≠ k' := fun q hq' he2 =>
        compareBytes_ne_of_lt (hq q hq') he2.symm
      rw [mtExtend_frame hnin]
      simp [mtGet, mtGet_insert_self]
    · rw [ih hrest]
      simp [mtGet, he, mtGet_insert_other he v' acc]

/-- The "latest hit wins" fold: the value the serialized `parallel_search`
workers leave in `result` is the last `some` of the per-position options. -/
def lastSome (l : List (Option Bytes)) : Option Bytes :=
  l.foldl (fun acc o => match o with | some v => some v | none => acc) none

theorem lastSome_concat (l : List (Option Bytes)) (o : Option Bytes) :
    lastSome (l ++ [o]) =
      (match o with | some v => some v | none => lastSome l) := by
  rw [lastSome, List.foldl_append]
  rfl

theorem lastSome_single (o : Option Bytes) :
    lastSome [o] = (match o with | some v => some v | none => none) := rfl

theorem compactStore_sorted (ssts : List SSTable) : recSorted (compactStore ssts) := by
  rw [compactStore]
  generalize hacc : ([] : List Rec) = acc
  have hs : recSorted acc := hacc ▸ List.Pairwise.nil
  clear hacc
  induction ssts generalizing acc with
  | nil => exact hs
  | cons t rest ih =>
    rw [List.foldl_cons]
    exact ih _ (mtExtend_sorted t.asHashmap hs)

theorem compactStore_noTomb (ssts : List SSTable) : noTomb (compactStore ssts) := by
  rw [compactStore]
  generalize hacc : ([] : List Rec) = acc
  have hs : noTomb acc := by
    intro p hp
    rw [← hacc] at hp
    exact absurd hp (List.not_mem_nil p)
  clear hacc
  induction ssts generalizing acc with
  | nil => exact hs
  | cons t rest ih =>
    rw [List.foldl_cons]
    exact ih _ (mtExtend_noTomb (asHashmap_noTomb t) hs)

/-- Lookup in the compaction union: the last (newest) SSTable whose spec
lookup answers, in catalog order. -/
theorem compactStore_lookup {k : Bytes} :
    ∀ {ssts : List SSTable}, (∀ t ∈ ssts, recSorted t.records) →
    mtGet k (compactStore ssts) =
      lastSome (ssts.map fun t => searchSpecLookup t.records k) := by
  intro ssts
  induction ssts using List.reverseRecOn with
  | nil => intro _; rfl
  | append_singleton rest t ih =>
    intro hall
    have hrest : ∀ u ∈ rest, recSorted u.records := fun u hu =>
      hall u (List.mem_append_left _ hu)
    have ht : recSorted t.records := hall t (List.mem_append_right _ (List.mem_singleton.mpr rfl))
    rw [compactStore, List.foldl_append, List.foldl_cons, List.foldl_nil]
    rw [show (rest.foldl (fun acc u => mtExtend acc u.asHashmap) []) =
      compactStore rest from rfl]
    rw [mtExtend_lookup (asHashmap_sorted t), asHashmap_lookup ht]
    rw [List.map_append, List.map_singleton, lastSome_concat, ih hrest]

theorem filterMap_range_getLast (l : List SSTable) (f : SSTable → Option Bytes) :
    ((List.range l.length).filterMap fun i =>
        (f (l.getD i ⟨[], []⟩)).map fun v => (i, v)).getLast?.map (·.2) =
      lastSome (l.map f) := by
  induction l using List.reverseRecOn with
  | nil => rfl
  | append_singleton rest t ih =>
    rw [List.length_append, List.length_singleton, List.range_succ, List.filterMap_append]
    have hcong : ((List.range rest.length).filterMap fun i =>
        (f ((rest ++ [t]).getD i ⟨[], []⟩)).map fun v => (i, v)) =
        ((List.range rest.length).filterMap fun i =>
        (f (rest.getD i ⟨[], []⟩)).map fun v => (i, v)) := by
      apply List.filterMap_congr
      intro i hi
      rw [List.getD_append _ _ _ _ (List.mem_range.mp hi)]
    rw [hcong, List.map_append, List.map_singleton, lastSome_concat]
    have hgd : (rest ++ [t]).getD rest.length ⟨[], []⟩ = t := by
      rw [List.getD_append_right _ _ _ _ (Nat.le_refl _), Nat.sub_self]
      rfl
    rcases hft : f t with _ | v
    · simp only [List.filterMap_cons, List.filterMap_nil, hgd, hft, Option.map_none']
      rw [List.append_nil, ih]
    · simp only [List.filterMap_cons, List.filterMap_nil, hgd, hft, Option.map_some']
      rw [List.getLast?_concat]
      rfl

/-- With a catalog of 1 to 10 SSTables (each worker gets a chunk of
exactly one SSTable) whose records satisfy I1, `parallel_search` answers
the newest per-SSTable spec-lookup hit — SSTable tombstone records,
which `SSTable::search` reports as misses, included in no way. -/
theorem parallelSearch_small {ssts : List SSTable} (hn1 : 1 ≤ ssts.length)
    (hn10 : ssts.length ≤ 10) (hs : ∀ t ∈ ssts, recSorted t.records) (k : Bytes) :
    parallelSearch ssts k =
      .ok (lastSome (ssts.map fun t => searchSpecLookup t.records k)) := by
  have h0 : ¬ ssts.length = 0 := by omega
  have hnT : min ssts.length 10 = ssts.length := Nat.min_eq_left hn10
  have hc : (ssts.length + ssts.length - 1) / ssts.length = 1 := by
    apply Nat.div_eq_of_lt_le <;> omega
  rw [parallelSearch]
  simp only [if_neg h0, hnT, hc, Nat.mul_one]
  have hany : ¬ ((List.range ssts.length).any fun i =>
      decide (ssts.length < i)) = true := by
    rw [List.any_eq_true]
    rintro ⟨i, hi, hd⟩
    rw [List.mem_range] at hi
    rw [decide_eq_true_eq] at hd
    omega
  rw [if_neg hany]
  have hfun : ∀ i ∈ List.range ssts.length,
      chunkFirstHit ssts k (List.range' i (min (i + 1) ssts.length - i)) =
        ((ssts.getD i ⟨[], []⟩).search k).map fun v => (i, v) := by
    intro i hi
    have hi' : i < ssts.length := List.mem_range.mp hi
    have hmin : min (i + 1) ssts.length = i + 1 := Nat.min_eq_left (by omega)
    rw [hmin, Nat.add_sub_cancel_left, List.range'_one]
    rcases hsv : (ssts.getD i ⟨[], []⟩).search k with _ | v
    · simp only [List.getD_eq_getElem?_getD] at hsv
      simp [chunkFirstHit, hsv]
    · have hmem : ssts.getD i ⟨[], []⟩ ∈ ssts := by
        rw [List.getD_eq_getElem _ _ hi']
        exact List.getElem_mem hi'
      have hvt : v ≠ TOMBSTONE := search_ne_tombstone (hs _ hmem) hsv
      simp only [List.getD_eq_getElem?_getD] at hsv
      simp [chunkFirstHit, hsv, hvt]
  rw [List.filterMap_congr hfun, filterMap_range_getLast ssts (fun t => t.search k)]
  rw [List.map_congr_left fun t ht => search_eq_searchSpecLookup (hs t ht) k]

theorem searchSpecLookup_eq_mtGet_of_noTomb {m : List Rec} (h : noTomb m) (k : Bytes) :
    searchSpecLookup m k = mtGet k m := by
  rw [searchSpecLookup]
  rcases hg : mtGet k m with _ | v
  · rfl
  · have hv : v ≠ TOMBSTONE := h (k, v) (mtGet_mem hg)
    simp [hv]

theorem compaction_sstables (s : KVStore) (d : Disk) :
    (KVStore.compaction s d).1.sstables =
      [⟨(create_sstable s.sstables.length s.sstable_dir d.length).dat,
        compactStore s.sstables⟩] := by
  rw [KVStore.compaction, compactionFn]
  simp [SSTable.write, create_sstable]

theorem lastSome_single_id (o : Option Bytes) : lastSome [o] = o := by
  cases o <;> rfl

/-- On a catalog of 1 to 10 SSTables satisfying I1, `get` answers the
same before and after `compaction()`. -/
theorem compaction_preserves_get_small (s : KVStore) (d : Disk)
    (hs : ∀ t ∈ s.sstables, recSorted t.records)
    (h1 : 1 ≤ s.sstables.length) (h10 : s.sstables.length ≤ 10) (k : Bytes) :
    (KVStore.compaction s d).1.get k = s.get k := by
  have hmem : (KVStore.compaction s d).1.memtable = s.memtable := rfl
  rw [KVStore.get, KVStore.get, hmem]
  rcases hgv : mtGet k s.memtable with _ | v
  · simp only [hgv]
    rw [compaction_sstables]
    have hsm : ∀ t ∈ [(⟨(create_sstable s.sstables.length s.sstable_dir d.length).dat,
        compactStore s.sstables⟩ : SSTable)], recSorted t.records := by
      intro t ht
      rw [List.mem_singleton.mp ht]
      exact compactStore_sorted s.sstables
    rw [parallelSearch_small (by simp) (by simp) hsm k]
    rw [parallelSearch_small h1 h10 hs k]
    rw [List.map_singleton, lastSome_single_id]
    rw [searchSpecLookup_eq_mtGet_of_noTomb (compactStore_noTomb s.sstables) k]
    rw [compactStore_lookup hs]
  · simp only [hgv]

/-- The clean two-cursor merge of two record lists, new side winning on
equal keys: the sequence of records `merge_two` stages, without the
buffering.  Spec-side device for the proofs about `merge_two`. -/
def mergeSpec : List Rec → List Rec → List Rec
  | [], ns => ns
  | os, [] => os
  | (ko, vo) :: os, (kn, vn) :: ns =>
    match compareBytes ko kn with
    | .lt => (ko, vo) :: mergeSpec os ((kn, vn) :: ns)
    | .eq => (kn, vn) :: mergeSpec os ns
    | .gt => (kn, vn) :: mergeSpec ((ko, vo) :: os) ns
termination_by os ns => os.length + ns.length

theorem mergeSpec_nil_left (ns : List Rec) : mergeSpec [] ns = ns := by
  cases ns <;> simp [mergeSpec]

theorem mergeSpec_nil_right (os : List Rec) : mergeSpec os [] = os := by
  cases os <;> simp [mergeSpec]

theorem mergeSpec_cons_cons (ko vo kn vn : Bytes) (os ns : List Rec) :
    mergeSpec ((ko, vo) :: os) ((kn, vn) :: ns) =
      match compareBytes ko kn with
      | .lt => (ko, vo) :: mergeSpec os ((kn, vn) :: ns)
      | .eq => (kn, vn) :: mergeSpec os ns
      | .gt => (kn, vn) :: mergeSpec ((ko, vo) :: os) ns := by
  simp [mergeSpec]

theorem mem_mergeSpec : ∀ (n : Nat) {os ns : List Rec},
    os.length + ns.length ≤ n → ∀ {p : Rec}, p ∈ mergeSpec os ns → p ∈ os ∨ p ∈ ns := by
  intro n
  induction n with
  | zero =>
    intro os ns hlen p hp
    have hos : os = [] := by
      cases os with
      | nil => rfl
      | cons q rest => simp at hlen
    subst hos
    rw [mergeSpec_nil_left] at hp
    exact Or.inr hp
  | succ n ih =>
    intro os ns hlen p hp
    cases os with
    | nil =>
      rw [mergeSpec_nil_left] at hp
      exact Or.inr hp
    | cons o os' =>
      cases ns with
      | nil =>
        rw [mergeSpec_nil_right] at hp
        exact Or.inl hp
      | cons q ns' =>
        obtain ⟨ko, vo⟩ := o
        obtain ⟨kn, vn⟩ := q
        rw [mergeSpec_cons_cons] at hp
        simp at hlen
        rcases hc : compareBytes ko kn with _ | _ | _ <;> rw [hc] at hp
        · rcases List.mem_cons.mp hp with h | h
          · exact Or.inl (by simp [h])
          · rcases ih (by simp only [List.length_cons]; omega) h with h' | h'
            · exact Or.inl (List.mem_cons_of_mem _ h')
            · exact Or.inr h'
        · rcases List.mem_cons.mp hp with h | h
          · exact Or.inr (by simp [h])
          · rcases ih (by omega) h with h' | h'
            · exact Or.inl (List.mem_cons_of_mem _ h')
            · exact Or.inr (List.mem_cons_of_mem _ h')
        · rcases List.mem_cons.mp hp with h | h
          · exact Or.inr (by simp [h])
          · rcases ih (by simp only [List.length_cons]; omega) h with h' | h'
            · exact Or.inl h'
            · exact Or.inr (List.mem_cons_of_mem _ h')

theorem mergeSpec_sorted : ∀ (n : Nat) {os ns : List Rec},
    os.length + ns.length ≤ n → recSorted os → recSorted ns →
    recSorted (mergeSpec os ns) := by
  intro n
  induction n with
  | zero =>
    intro os ns hlen ho hn
    have hos : os = [] := by
      cases os with
      | nil => rfl
      | cons q rest => simp at hlen
    subst hos
    rw [mergeSpec_nil_left]
    exact hn
  | succ n ih =>
    intro os ns hlen ho hn
    cases os with
    | nil => rw [mergeSpec_nil_left]; exact hn
    | cons o os' =>
      cases ns with
      | nil => rw [mergeSpec_nil_right]; exact ho
      | cons q ns' =>
        obtain ⟨ko, vo⟩ := o
        obtain ⟨kn, vn⟩ := q
        rcases ho with ⟨⟩ | ⟨hoq, ho'⟩
        rcases hn with ⟨⟩ | ⟨hnq, hn'⟩
        simp at hlen
        rw [mergeSpec_cons_cons]
        rcases hc : compareBytes ko kn with _ | _ | _
        · refine List.Pairwise.cons ?_
            (ih (by simp only [List.length_cons]; omega) ho' (List.Pairwise.cons hnq hn'))
          intro r hr
          rcases mem_mergeSpec (os'.length + (ns'.length + 1))
            (by simp only [List.length_cons]; omega) hr with h | h
          · exact hoq r h
          · rcases List.mem_cons.mp h with h' | h'
            · subst h'; exact hc
            · exact compareBytes_lt_trans hc (hnq r h')
        · have hk : ko = kn := compareBytes_eq_iff.mp hc
          refine List.Pairwise.cons ?_ (ih (by omega) ho' hn')
          intro r hr
          rcases mem_mergeSpec (os'.length + ns'.length) (by omega) hr with h | h
          · have := hoq r h
            rw [recLt, ← hk]
            rw [recLt] at this
            exact this
          · exact hnq r h
        · have hk : compareBytes kn ko = .lt := compareBytes_gt_iff.mp hc
          refine List.Pairwise.cons ?_
            (ih (by simp only [List.length_cons]; omega) (List.Pairwise.cons hoq ho') hn')
          intro r hr
          rcases mem_mergeSpec (os'.length + 1 + ns'.length)
            (by simp only [List.length_cons]; omega) hr with h | h
          · rcases List.mem_cons.mp h with h' | h'
            · subst h'; exact hk
            · exact compareBytes_lt_trans hk (hoq r h')
          · exact hnq r h

theorem mem_mergeSpec_iff : ∀ (n : Nat) {os ns : List Rec},
    os.length + ns.length ≤ n → recSorted os → recSorted ns → ∀ {k v : Bytes},
    ((k, v) ∈ mergeSpec os ns ↔
      (mtGet k ns = some v ∨ (mtGet k ns = none ∧ mtGet k os = some v))) := by
  intro n
  induction n with
  | zero =>
    intro os ns hlen ho hn k v
    have hos : os = [] := by
      cases os with
      | nil => rfl
      | cons q rest => simp at hlen
    subst hos
    rw [mergeSpec_nil_left]
    constructor
    · intro h
      exact Or.inl (mtGet_eq_some_of_mem hn h)
    · intro h
      rcases h with h | ⟨_, h2⟩
      · exact mtGet_mem h
      · cases h2
  | succ n ih =>
    intro os ns hlen ho hn k v
    cases os with
    | nil =>
      rw [mergeSpec_nil_left]
      constructor
      · intro h
        exact Or.inl (mtGet_eq_some_of_mem hn h)
      · intro h
        rcases h with h | ⟨_, h2⟩
        · exact mtGet_mem h
        · cases h2
    | cons o os' =>
      cases ns with
      | nil =>
        rw [mergeSpec_nil_right]
        constructor
        · intro h
          exact Or.inr ⟨rfl, mtGet_eq_some_of_mem ho h⟩
        · intro h
          rcases h with h | ⟨_, h2⟩
          · cases h
          · exact mtGet_mem h2
      | cons q ns' =>
        obtain ⟨ko, vo⟩ := o
        obtain ⟨kn, vn⟩ := q
        have hoq : ∀ r ∈ os', recLt (ko, vo) r := fun r hr =>
          List.rel_of_pairwise_cons ho hr
        have ho' : recSorted os' := List.Pairwise.of_cons ho
        have hnq : ∀ r ∈ ns', recLt (kn, vn) r := fun r hr =>
          List.rel_of_pairwise_cons hn hr
        have hn' : recSorted ns' := List.Pairwise.of_cons hn
        simp only [List.length_cons] at hlen
        rw [mergeSpec_cons_cons]
        rcases hc : compareBytes ko kn with _ | _ | _
        · -- ko < kn
          by_cases hk : ko = k
          · subst hk
            have hnin_os : ∀ r ∈ os', r.1 ≠ ko := fun r hr he =>
              compareBytes_ne_of_lt (hoq r hr) he.symm
            have hnin_ns : mtGet ko ((kn, vn) :: ns') = none := by
              rw [mtGet_eq_none_iff]
              intro r hr
              rcases List.mem_cons.mp hr with h' | h'
              · subst h'
                exact fun he => compareBytes_ne_of_lt hc he.symm
              · intro he
                exact compareBytes_ne_of_lt
                  (compareBytes_lt_trans hc (hnq r h')) he.symm
            rw [hnin_ns]
            have hget : mtGet ko ((ko, vo) :: os') = some vo := by simp [mtGet]
            rw [hget]
            constructor
            · intro h
              rcases List.mem_cons.mp h with h' | h'
              · cases h'
                exact Or.inr ⟨rfl, rfl⟩
              · exfalso
                rcases mem_mergeSpec (os'.length + (ns'.length + 1))
                    (by simp only [List.length_cons]; omega) h' with h2 | h2
                · exact hnin_os _ h2 rfl
                · rcases List.mem_cons.mp h2 with h3 | h3
                  · cases h3
                    exact compareBytes_ne_of_lt hc rfl
                  · exact compareBytes_ne_of_lt
                      (compareBytes_lt_trans hc (hnq _ h3)) rfl
            · intro h
              rcases h with h | ⟨_, h2⟩
              · cases h
              · cases h2
                exact List.mem_cons_self _ _
          · -- k ≠ ko
            have hmt_os : mtGet k ((ko, vo) :: os') = mtGet k os' := by
              simp [mtGet, hk]
            rw [hmt_os]
            constructor
            · intro h
              rcases List.mem_cons.mp h with h' | h'
              · cases h'
                exact absurd rfl hk
              · exact (ih (by simp only [List.length_cons]; omega) ho'
                  (List.Pairwise.cons hnq hn')).mp h'
            · intro h
              exact List.mem_cons_of_mem _
                ((ih (by simp only [List.length_cons]; omega) ho'
                  (List.Pairwise.cons hnq hn')).mpr h)
        · -- ko = kn
          have hkeq : ko = kn := compareBytes_eq_iff.mp hc
          by_cases hk : kn = k
          · subst hk
            have hget_ns : mtGet kn ((kn, vn) :: ns') = some vn := by simp [mtGet]
            rw [hget_ns]
            constructor
            · intro h
              rcases List.mem_cons.mp h with h' | h'
              · cases h'
                exact Or.inl rfl
              · exfalso
                rcases mem_mergeSpec (os'.length + ns'.length)
                    (by omega) h' with h2 | h2
                · exact compareBytes_ne_of_lt (hoq _ h2) (by rw [hkeq])
                · exact compareBytes_ne_of_lt (hnq _ h2) rfl
            · intro h
              rcases h with h | ⟨h1, _⟩
              · cases h
                exact List.mem_cons_self _ _
              · cases h1
          · have hmt_ns : mtGet k ((kn, vn) :: ns') = mtGet k ns' := by
              simp [mtGet, hk]
            have hmt_os : mtGet k ((ko, vo) :: os') = mtGet k os' := by
              simp [mtGet, hkeq ▸ hk]
            rw [hmt_ns, hmt_os]
            constructor
            · intro h
              rcases List.mem_cons.mp h with h' | h'
              · cases h'
                exact absurd rfl hk
              · exact (ih (by omega) ho' hn').mp h'
            · intro h
              exact List.mem_cons_of_mem _ ((ih (by omega) ho' hn').mpr h)
        · -- ko > kn
          have hklt : compareBytes kn ko = .lt := compareBytes_gt_iff.mp hc
          by_cases hk : kn = k
          · subst hk
            have hget_ns : mtGet kn ((kn, vn) :: ns') = some vn := by simp [mtGet]
            rw [hget_ns]
            constructor
            · intro h
              rcases List.mem_cons.mp h with h' | h'
              · cases h'
                exact Or.inl rfl
              · exfalso
                rcases mem_mergeSpec (os'.length + 1 + ns'.length)
                    (by simp only [List.length_cons]; omega) h' with h2 | h2
                · rcases List.mem_cons.mp h2 with h3 | h3
                  · cases h3
                    exact compareBytes_ne_of_lt hklt rfl
                  · exact compareBytes_ne_of_lt
                      (compareBytes_lt_trans hklt (hoq _ h3)) rfl
                · exact compareBytes_ne_of_lt (hnq _ h2) rfl
            · intro h
              rcases h with h | ⟨h1, _⟩
              · cases h
                exact List.mem_cons_self _ _
              · cases h1
          · have hmt_ns : mtGet k ((kn, vn) :: ns') = mtGet k ns' := by
              simp [mtGet, hk]
            rw [hmt_ns]
            constructor
            · intro h
              rcases List.mem_cons.mp h with h' | h'
              · cases h'
                exact absurd rfl hk
              · exact (ih (by simp only [List.length_cons]; omega)
                  (List.Pairwise.cons hoq ho') hn').mp h'
            · intro h
              exact List.mem_cons_of_mem _
                ((ih (by simp only [List.length_cons]; omega)
                  (List.Pairwise.cons hoq ho') hn').mpr h)

theorem stage_track {cap : Nat} {p : Rec} {buf out : List Rec}
    (h : ∀ q ∈ buf, compareBytes q.1 p.1 = .lt) :
    (stage cap p (buf, out)).2 ++ (stage cap p (buf, out)).1 = (out ++ buf) ++ [p] := by
  rw [stage]
  have hins : mtInsert p.1 p.2 buf = buf ++ [p] := mtInsert_append h p.2
  rw [hins]
  by_cases hcap : cap < (buf ++ [p]).length
  · rw [if_pos hcap]
    simp [List.append_assoc]
  · rw [if_neg hcap]
    simp [List.append_assoc]

theorem stage_buf_mem {cap : Nat} {p q : Rec} {buf out : List Rec}
    (hq : q ∈ (stage cap p (buf, out)).1) : q ∈ buf ∨ q = p := by
  rw [stage] at hq
  by_cases hcap : cap < (mtInsert p.1 p.2 buf).length
  · rw [if_pos hcap] at hq
    cases hq
  · rw [if_neg hcap] at hq
    rcases mem_mtInsert hq with h | h
    · exact Or.inr (by rw [h])
    · exact Or.inl h

theorem drainLoop_track (cap : Nat) :
    ∀ (rest : List Rec) (bo : List Rec × List Rec),
      (∀ q ∈ bo.1, ∀ r ∈ rest, compareBytes q.1 r.1 = .lt) →
      recSorted rest →
      (drainLoop cap rest bo).2 ++ (drainLoop cap rest bo).1 = bo.2 ++ bo.1 ++ rest := by
  intro rest
  induction rest with
  | nil =>
    intro bo _ _
    obtain ⟨buf, out⟩ := bo
    rw [drainLoop, List.append_nil]
  | cons p rest ih =>
    intro bo hb hs
    obtain ⟨buf, out⟩ := bo
    have hps : ∀ r ∈ rest, recLt p r := fun r hr =>
      List.rel_of_pairwise_cons hs hr
    have hs' : recSorted rest := List.Pairwise.of_cons hs
    rw [drainLoop]
    have hbound : ∀ q ∈ (stage cap p (buf, out)).1, ∀ r ∈ rest,
        compareBytes q.1 r.1 = .lt := by
      intro q hq r hr
      rcases stage_buf_mem hq with h | h
      · exact hb q h r (List.mem_cons_of_mem p hr)
      · rw [h]
        exact hps r hr
    rw [ih (stage cap p (buf, out)) hbound hs']
    rw [stage_track (fun q hq => hb q hq p (List.mem_cons_self p rest))]
    rw [List.append_assoc (out ++ buf), List.singleton_append]

theorem mergeMain_track (cap : Nat) :
    ∀ (fuel : Nat) (os ns buf out : List Rec),
      os.length + ns.length ≤ fuel →
      recSorted os → recSorted ns →
      (∀ q ∈ buf, ∀ r ∈ os, compareBytes q.1 r.1 = .lt) →
      (∀ q ∈ buf, ∀ r ∈ ns, compareBytes q.1 r.1 = .lt) →
      ((mergeMain cap fuel os ns (buf, out)).1.2 ++
          (mergeMain cap fuel os ns (buf, out)).1.1 ++
          mergeSpec (mergeMain cap fuel os ns (buf, out)).2.1
            (mergeMain cap fuel os ns (buf, out)).2.2
        = out ++ buf ++ mergeSpec os ns)
      ∧ recSorted (mergeMain cap fuel os ns (buf, out)).2.1
      ∧ recSorted (mergeMain cap fuel os ns (buf, out)).2.2
      ∧ (∀ q ∈ (mergeMain cap fuel os ns (buf, out)).1.1,
          ∀ r ∈ (mergeMain cap fuel os ns (buf, out)).2.1,
            compareBytes q.1 r.1 = .lt)
      ∧ (∀ q ∈ (mergeMain cap fuel os ns (buf, out)).1.1,
          ∀ r ∈ (mergeMain cap fuel os ns (buf, out)).2.2,
            compareBytes q.1 r.1 = .lt)
      ∧ ((mergeMain cap fuel os ns (buf, out)).2.1 = [] ∨
          (mergeMain cap fuel os ns (buf, out)).2.2 = []) := by
  intro fuel
  induction fuel with
  | zero =>
    intro os ns buf out hlen ho hn hbo hbn
    have hos : os = [] := by
      cases os with
      | nil => rfl
      | cons q rest => simp at hlen
    have hns : ns = [] := by
      cases ns with
      | nil => rfl
      | cons q rest => subst hos; simp at hlen
    subst hos; subst hns
    rw [mergeMain]
    refine ⟨rfl, List.Pairwise.nil, List.Pairwise.nil, ?_, ?_, Or.inl rfl⟩
    · intro q _ r hr; cases hr
    · intro q _ r hr; cases hr
  | succ fuel ih =>
    intro os ns buf out hlen ho hn hbo hbn
    cases os with
    | nil =>
      rw [mergeMain]
      refine ⟨rfl, List.Pairwise.nil, hn, ?_, hbn, Or.inl rfl⟩
      intro q hq r hr
      cases hr
    | cons o os' =>
      cases ns with
      | nil =>
        obtain ⟨ko, vo⟩ := o
        rw [mergeMain]
        · refine ⟨rfl, ho, List.Pairwise.nil, hbo, ?_, Or.inr rfl⟩
          intro q hq r hr
          cases hr
        · intro h
          cases h
      | cons q0 ns' =>
        obtain ⟨ko, vo⟩ := o
        obtain ⟨kn, vn⟩ := q0
        have hoq : ∀ r ∈ os', recLt (ko, vo) r := fun r hr =>
          List.rel_of_pairwise_cons ho hr
        have ho' : recSorted os' := List.Pairwise.of_cons ho
        have hnq : ∀ r ∈ ns', recLt (kn, vn) r := fun r hr =>
          List.rel_of_pairwise_cons hn hr
        have hn' : recSorted ns' := List.Pairwise.of_cons hn
        simp only [List.length_cons] at hlen
        rw [mergeMain]
        rcases hc : compareBytes ko kn with _ | _ | _
        all_goals simp only [hc]
        · -- ko < kn: stage the old pair
          rcases hst : stage cap (ko, vo) (buf, out) with ⟨buf', out'⟩
          have htrack := @stage_track cap (ko, vo) buf out
            (fun q hq => hbo q hq (ko, vo) (List.mem_cons_self _ _))
          rw [hst] at htrack
          have hmem' : ∀ q ∈ buf', q ∈ buf ∨ q = (ko, vo) := by
            intro q hq
            have : q ∈ (stage cap (ko, vo) (buf, out)).1 := by rw [hst]; exact hq
            exact stage_buf_mem this
          have hbo' : ∀ q ∈ buf', ∀ r ∈ os', compareBytes q.1 r.1 = .lt := by
            intro q hq r hr
            rcases hmem' q hq with h | h
            · exact hbo q h r (List.mem_cons_of_mem _ hr)
            · rw [h]; exact hoq r hr
          have hbn' : ∀ q ∈ buf', ∀ r ∈ (kn, vn) :: ns',
              compareBytes q.1 r.1 = .lt := by
            intro q hq r hr
            rcases hmem' q hq with h | h
            · exact hbn q h r hr
            · rw [h]
              rcases List.mem_cons.mp hr with h' | h'
              · rw [h']; exact hc
              · exact compareBytes_lt_trans hc (hnq r h')
          obtain ⟨heq, h1, h2, h3, h4, h5⟩ := ih os' ((kn, vn) :: ns') buf' out'
            (by simp only [List.length_cons]; omega) ho'
            (List.Pairwise.cons hnq hn') hbo' hbn'
          refine ⟨?_, h1, h2, h3, h4, h5⟩
          rw [heq, htrack, mergeSpec_cons_cons, hc]
          rw [List.append_assoc (out ++ buf), List.singleton_append]
        · -- ko = kn: stage the new pair, advance both
          have hkeq : ko = kn := compareBytes_eq_iff.mp hc
          rcases hst : stage cap (kn, vn) (buf, out) with ⟨buf', out'⟩
          have htrack := @stage_track cap (kn, vn) buf out
            (fun q hq => hbn q hq (kn, vn) (List.mem_cons_self _ _))
          rw [hst] at htrack
          have hmem' : ∀ q ∈ buf', q ∈ buf ∨ q = (kn, vn) := by
            intro q hq
            have : q ∈ (stage cap (kn, vn) (buf, out)).1 := by rw [hst]; exact hq
            exact stage_buf_mem this
          have hbo' : ∀ q ∈ buf', ∀ r ∈ os', compareBytes q.1 r.1 = .lt := by
            intro q hq r hr
            rcases hmem' q hq with h | h
            · exact hbo q h r (List.mem_cons_of_mem _ hr)
            · rw [h]
              have := hoq r hr
              rw [recLt] at this
              rw [← hkeq]
              exact this
          have hbn' : ∀ q ∈ buf', ∀ r ∈ ns', compareBytes q.1 r.1 = .lt := by
            intro q hq r hr
            rcases hmem' q hq with h | h
            · exact hbn q h r (List.mem_cons_of_mem _ hr)
            · rw [h]; exact hnq r hr
          obtain ⟨heq, h1, h2, h3, h4, h5⟩ := ih os' ns' buf' out'
            (by omega) ho' hn' hbo' hbn'
          refine ⟨?_, h1, h2, h3, h4, h5⟩
          rw [heq, htrack, mergeSpec_cons_cons, hc]
          rw [List.append_assoc (out ++ buf), List.singleton_append]
        · -- ko > kn: stage the new pair
          have hklt : compareBytes kn ko = .lt := compareBytes_gt_iff.mp hc
          rcases hst : stage cap (kn, vn) (buf, out) with ⟨buf', out'⟩
          have htrack := @stage_track cap (kn, vn) buf out
            (fun q hq => hbn q hq (kn, vn) (List.mem_cons_self _ _))
          rw [hst] at htrack
          have hmem' : ∀ q ∈ buf', q ∈ buf ∨ q = (kn, vn) := by
            intro q hq
            have : q ∈ (stage cap (kn, vn) (buf, out)).1 := by rw [hst]; exact hq
            exact stage_buf_mem this
          have hbo' : ∀ q ∈ buf', ∀ r ∈ (ko, vo) :: os',
              compareBytes q.1 r.1 = .lt := by
            intro q hq r hr
            rcases hmem' q hq with h | h
            · exact hbo q h r hr
            · rw [h]
              rcases List.mem_cons.mp hr with h' | h'
              · rw [h']; exact hklt
              · exact compareBytes_lt_trans hklt (hoq r h')
          have hbn' : ∀ q ∈ buf', ∀ r ∈ ns', compareBytes q.1 r.1 = .lt := by
            intro q hq r hr
            rcases hmem' q hq with h | h
            · exact hbn q h r (List.mem_cons_of_mem _ hr)
            · rw [h]; exact hnq r hr
          obtain ⟨heq, h1, h2, h3, h4, h5⟩ := ih ((ko, vo) :: os') ns' buf' out'
            (by simp only [List.length_cons]; omega)
            (List.Pairwise.cons hoq ho') hn' hbo' hbn'
          refine ⟨?_, h1, h2, h3, h4, h5⟩
          rw [heq, htrack, mergeSpec_cons_cons, hc]
          rw [List.append_assoc (out ++ buf), List.singleton_append]

/-- For inputs with strictly increasing keys, the chunked staging of
`merge_two` is transparent: the out-SSTable holds exactly the clean
cursor-merge sequence, for every buffer capacity. -/
theorem merge_two_eq_mergeSpec {told tnew : SSTable} (ho : recSorted told.records)
    (hn : recSorted tnew.records) (cap : Nat) :
    merge_two told tnew cap = mergeSpec told.records tnew.records := by
  obtain ⟨heq, h1, h2, h3, h4, h5⟩ := mergeMain_track cap
    (told.records.length + tnew.records.length) told.records tnew.records [] []
    (Nat.le_refl _) ho hn (fun q hq => absurd hq (List.not_mem_nil q))
    (fun q hq => absurd hq (List.not_mem_nil q))
  set M := mergeMain cap (told.records.length + tnew.records.length)
    told.records tnew.records ([], []) with hM
  have hr : merge_two told tnew cap =
      (drainLoop cap M.2.2 (drainLoop cap M.2.1 M.1)).2 ++
      (drainLoop cap M.2.2 (drainLoop cap M.2.1 M.1)).1 := rfl
  rw [hr]
  rcases h5 with h5 | h5
  · rw [h5]
    rw [drainLoop]
    rw [drainLoop_track cap M.2.2 M.1 h4 h2]
    rw [h5, mergeSpec_nil_left] at heq
    simpa using heq
  · rw [h5]
    rw [drainLoop]
    rw [drainLoop_track cap M.2.1 M.1 h3 h1]
    rw [h5, mergeSpec_nil_right] at heq
    simpa using heq

theorem mtErase_sublist (k : Bytes) : ∀ m : List Rec, List.Sublist (mtErase k m) m := by
  intro m
  induction m with
  | nil => exact List.Sublist.refl []
  | cons p rest ih =>
    obtain ⟨k', v'⟩ := p
    rw [mtErase]
    by_cases he : k' = k
    · rw [if_pos he]
      exact List.sublist_cons_of_sublist _ (List.Sublist.refl rest)
    · rw [if_neg he]
      exact List.Sublist.cons₂ _ ih

/-- The memtable's strict key sortedness is preserved by removal, so the
store invariant behind the flush claims holds across `delete`. -/
theorem mtErase_sorted {m : List Rec} (hs : recSorted m) (k : Bytes) :
    recSorted (mtErase k m) :=
  List.Pairwise.sublist (mtErase_sublist k m) hs

/-- An operation of the public API, for running concrete workloads. -/
inductive StoreOp where
  | setStep (k v : Bytes)
  | delStep (k : Bytes)
  | compactStep
deriving DecidableEq

/-- Run a workload from a store and disk, stopping at the first panic. -/
def runOps : KVStore × Disk → List StoreOp → PRes (KVStore × Disk)
  | w, [] => .ok w
  | w, op :: rest =>
    match op with
    | .setStep k v =>
      match w.1.set w.2 k v with
      | .panicked e => .panicked e
      | .ok w' => runOps w' rest
    | .delStep k =>
      match w.1.delete k with
      | .panicked e => .panicked e
      | .ok s => runOps (s, w.2) rest
    | .compactStep => runOps (w.1.compaction w.2) rest

/-- Read a key out of a workload result. -/
def runGet (w : PRes (KVStore × Disk)) (k : Bytes) : PRes (Option Bytes) :=
  match w with
  | .panicked e => .panicked e
  | .ok sd => sd.1.get k

/-- A base directory for the concrete workloads. -/
def dir0 : List PathComp := [[120]]

def kabc : Bytes := [97, 98, 99]
def kdef : Bytes := [100, 101, 102]
def kghi : Bytes := [103, 104, 105]
def kjkl : Bytes := [106, 107, 108]
def kmno : Bytes := [109, 110, 111]
def kpqr : Bytes := [112, 113, 114]
def kstu : Bytes := [115, 116, 117]
def kvwx : Bytes := [118, 119, 120]

/-- Workload of the C1 failing input: with a 10-byte budget,
`set abc def` ; `set ghi jkl` (flushes `{abc: def}` to SSTable 0) ;
`delete abc` (writes a tombstone into the memtable) ; `set mno pqr` ;
`set stu vwx` (flushes `{abc: TOMBSTONE, ghi: jkl, mno: pqr}` to
SSTable 1). -/
def c1Ops : List StoreOp :=
  [.setStep kabc kdef, .setStep kghi kjkl, .delStep kabc,
   .setStep kmno kpqr, .setStep kstu kvwx]

def c1Run : PRes (Option Bytes) :=
  runGet (runOps (KVStore.new 10 dir0 [], []) c1Ops) kabc

/-- **C1** — the claim "after `set(k, v)` followed by `delete(k)`,
`get(k)` returns `None`, across any number of intervening flushes and
compactions" FAILS on the code: in the workload `c1Ops` the delete's
tombstone is flushed into SSTable 1, `SSTable::search` reports the
tombstone record as a miss (`None`), and `parallel_search` therefore
falls back to the older value in SSTable 0 — `get abc` answers
`Some def` where the claim requires `None`. -/
theorem c1_deleted_key_resurfaces : c1Run = .ok (some kdef) := by decide

def c3World : PRes (KVStore × Disk) :=
  runOps (KVStore.new 10 dir0 [], []) [.setStep kabc kdef, .setStep kghi kjkl]

def c3Disk : Disk :=
  match c3World with
  | .ok w => w.2
  | .panicked _ => []

/-- **C3** — the claim "a key whose last `set` was followed by a flush is
readable after restarting on the same directory" FAILS on the code, for
two independent reasons: (a) every store built by `KVStore::new` answers
`get` with a panic (the catalog is empty — `discover_sstables`' result is
discarded — so `parallel_search` divides by zero); (b) the flush wrote
the SSTable under `<dir>/rkv/data/` while the discovery scan globs
`<dir>/rkv/dat/*`, so the scan finds nothing anyway.  Before the restart
the flushed key was readable. -/
theorem c3_restart_loses_flushed_data :
    (∀ (size : Nat) (dir : List PathComp) (d : Disk) (k : Bytes),
      (KVStore.new size dir d).get k = .panicked .emptyCatalogDiv)
    ∧ c3Disk.length = 1
    ∧ discoverSSTables dir0 c3Disk = []
    ∧ runGet c3World kabc = .ok (some kdef) := by
  refine ⟨?_, by decide, by decide, by decide⟩
  intro size dir d k
  rfl

/-- A directory content on which the startup scan does find an SSTable
data file (the path is `<dir>/rkv/dat/<name>.rkv`). -/
def exDisk (dir : List PathComp) : Disk :=
  [⟨(dir ++ [RKVB, DATB]) ++ [[49]], [([1], [2])]⟩]

/-- **C4** — confirmed: for every byte budget and every directory
contents, `KVStore::new` returns a store with an empty memtable, a zero
byte count and an EMPTY catalog: `discover_sstables` does return the
scanned SSTables (witnessed by `exDisk`, on which the scan is
non-empty), but `new` drops them on the floor. -/
theorem c4_new_discards_discovered_sstables :
    ∀ (size : Nat) (dir : List PathComp) (d : Disk),
      KVStore.new size dir d =
        { memtable := [], mem_size := 0, max_bytes := size,
          sstables := [], sstable_dir := dir }
      ∧ (KVStore.new size dir d).get_sstables_count = 0
      ∧ (KVStore.new size dir d).size = 0
      ∧ discoverSSTables dir (exDisk dir) ≠ [] := by
  intro size dir d
  refine ⟨rfl, rfl, rfl, ?_⟩
  simp [discoverSSTables, exDisk, List.dropLast_concat]

def sstWithValue : SSTable := ⟨[], [(kabc, kdef)]⟩

def sstWithTombstone : SSTable := ⟨[], [(kabc, TOMBSTONE)]⟩

def storeTombNewest : KVStore :=
  { memtable := [], mem_size := 0, max_bytes := 10,
    sstables := [sstWithValue, sstWithTombstone], sstable_dir := dir0 }

/-- **C5** — the claim "a tombstone at the largest catalog index masks
the key, so `get` returns `None`" FAILS on the code: with the newest
SSTable holding `abc ↦ TOMBSTONE` and the older one `abc ↦ def`,
`SSTable::search` reports the tombstone record as `None` (a miss), the
worker's own tombstone check in `parallel_search` is therefore dead
code, and the search answers the older live value `Some def` instead of
`None`. -/
theorem c5_newest_tombstone_not_masking :
    storeTombNewest.get kabc = .ok (some kdef)
    ∧ parallelSearch [sstWithValue, sstWithTombstone] kabc = .ok (some kdef)
    ∧ sstWithTombstone.search kabc = none := by decide

/-- **C6** — confirmed: on any SSTable with strictly increasing keys
(invariant I1), `SSTable::search` returns `Some v` exactly for the
non-tombstone record `(k, v)` of the SSTable, and `None` both when the
SSTable's record for the key holds the tombstone and when the key is
absent. -/
theorem c6_search_spec (t : SSTable) (hs : recSorted t.records) (k : Bytes) :
    (∀ v, (k, v) ∈ t.records → v ≠ TOMBSTONE → t.search k = some v)
    ∧ ((k, TOMBSTONE) ∈ t.records → t.search k = none)
    ∧ ((∀ p ∈ t.records, p.1 ≠ k) → t.search k = none) := by
  refine ⟨?_, ?_, ?_⟩
  · intro v hv hvt
    rw [search_eq_searchSpecLookup hs, searchSpecLookup,
      mtGet_eq_some_of_mem hs hv]
    simp [hvt]
  · intro h
    rw [search_eq_searchSpecLookup hs, searchSpecLookup,
      mtGet_eq_some_of_mem hs h]
    simp
  · intro h
    rw [search_eq_searchSpecLookup hs, searchSpecLookup,
      mtGet_eq_none_iff.mpr h]

def sstDemo : SSTable := ⟨[], [([1], [5]), ([2], TOMBSTONE), ([3], [9])]⟩

/-- Witness for C6 at a concrete three-record SSTable. -/
theorem c6_search_spec_witness :
    recSorted sstDemo.records
    ∧ sstDemo.search [1] = some [5]
    ∧ sstDemo.search [2] = none
    ∧ sstDemo.search [4] = none :=
  ⟨by decide,
   (c6_search_spec sstDemo (by decide) [1]).1 [5] (by decide) (by decide),
   (c6_search_spec sstDemo (by decide) [2]).2.1 (by decide),
   (c6_search_spec sstDemo (by decide) [4]).2.2 (by decide)⟩

/-- **C7** — confirmed: for inputs with strictly increasing keys and any
buffer capacity, `merge_two` writes a strictly key-sorted single run
holding exactly the key-wise union of the two inputs, the NEW side's
value (tombstone or not) winning on keys present in both. -/
theorem c7_merge_two_union (told tnew : SSTable) (ho : recSorted told.records)
    (hn : recSorted tnew.records) (log_size : Nat) :
    recSorted (merge_two told tnew log_size)
    ∧ ∀ k v, ((k, v) ∈ merge_two told tnew log_size ↔
        (mtGet k tnew.records = some v ∨
         (mtGet k tnew.records = none ∧ mtGet k told.records = some v))) := by
  rw [merge_two_eq_mergeSpec ho hn]
  exact ⟨mergeSpec_sorted (told.records.length + tnew.records.length)
      (Nat.le_refl _) ho hn,
    fun k v => mem_mergeSpec_iff (told.records.length + tnew.records.length)
      (Nat.le_refl _) ho hn⟩

def sstMergeOld : SSTable := ⟨[], [([1], [10]), ([3], [30])]⟩

def sstMergeNew : SSTable := ⟨[], [([2], [20]), ([3], TOMBSTONE)]⟩

/-- Witness for C7 at two concrete SSTables with an overlapping key
whose new value is the tombstone, and buffer capacity 0. -/
theorem c7_merge_two_union_witness :
    recSorted sstMergeOld.records
    ∧ recSorted sstMergeNew.records
    ∧ (recSorted (merge_two sstMergeOld sstMergeNew 0)
      ∧ ∀ k v, ((k, v) ∈ merge_two sstMergeOld sstMergeNew 0 ↔
          (mtGet k sstMergeNew.records = some v ∨
           (mtGet k sstMergeNew.records = none ∧
            mtGet k sstMergeOld.records = some v)))) :=
  ⟨by decide, by decide,
   c7_merge_two_union sstMergeOld sstMergeNew (by decide) (by decide) 0⟩

/-- **C8** — confirmed: a memtable flush writes all pairs of the
memtable, in ascending key order (the iteration order of the ordered
map), into a fresh SSTable appended at the catalog tail, so the flushed
SSTable satisfies invariant I1. -/
theorem c8_flush_sorted (s : KVStore) (d : Disk) (h : recSorted s.memtable) :
    ∃ t : SSTable,
      (s.flush_memtable d).1.sstables = s.sstables ++ [t]
      ∧ t.records = s.memtable
      ∧ recSorted t.records
      ∧ (s.flush_memtable d).2 = d ++ [{ path := t.dat, content := t.records }]
      ∧ (s.flush_memtable d).1.memtable = []
      ∧ (s.flush_memtable d).1.mem_size = 0 := by
  refine ⟨(create_sstable s.sstables.length s.sstable_dir d.length).write
    s.memtable, rfl, ?_, ?_, rfl, rfl, rfl⟩
  · simp [SSTable.write, create_sstable]
  · simpa [SSTable.write, create_sstable] using h

def storeW8 : KVStore :=
  { memtable := [([1], [2]), ([3], [4])], mem_size := 4, max_bytes := 100,
    sstables := [], sstable_dir := dir0 }

/-- Witness for C8 at a concrete store holding a two-pair memtable. -/
theorem c8_flush_sorted_witness :
    recSorted storeW8.memtable
    ∧ ∃ t : SSTable,
      (storeW8.flush_memtable []).1.sstables = storeW8.sstables ++ [t]
      ∧ t.records = storeW8.memtable
      ∧ recSorted t.records
      ∧ (storeW8.flush_memtable []).2 =
          [] ++ [{ path := t.dat, content := t.records }]
      ∧ (storeW8.flush_memtable []).1.memtable = []
      ∧ (storeW8.flush_memtable []).1.mem_size = 0 :=
  ⟨by decide, c8_flush_sorted storeW8 [] (by decide)⟩

/-- **C9** (amended) — `set` panics exactly when the updated running byte
count overflows the budget while the memtable is empty.  Since neither
`delete` nor `remove` ever decrements `mem_size`, the count can exceed
the budget with an empty memtable even though the pair being inserted is
small, so the panic is NOT equivalent to "the single pair alone exceeds
the budget" (see the counterexample). -/
theorem c9_set_panic_iff (s : KVStore) (d : Disk) (k v : Bytes) :
    (s.set d k v = .panicked .pairOverBudget) ↔
      (s.max_bytes < s.mem_size + (k.length + v.length) ∧ s.memtable = []) := by
  rw [KVStore.set]
  by_cases h : s.max_bytes < s.mem_size + (k.length + v.length) ∧ s.memtable = []
  · rw [if_pos h]
    simp [h.1, h.2]
  · rw [if_neg h]
    by_cases h2 : s.max_bytes < s.mem_size + (k.length + v.length)
    · rw [if_pos h2]
      constructor
      · intro hcon
        simp at hcon
      · intro hcon
        exact absurd hcon h
    · rw [if_neg h2]
      constructor
      · intro hcon
        simp at hcon
      · rintro ⟨hov, _⟩
        exact absurd hov h2

def storeW9 : KVStore :=
  { memtable := [([1], [2])], mem_size := 2, max_bytes := 4,
    sstables := [], sstable_dir := dir0 }

/-- Witness for C9 (amended) at a concrete store: one `set` that panics
(empty memtable after construction, budget 4, pair of 5 bytes) and one
that does not (non-empty memtable). -/
theorem c9_set_panic_iff_witness :
    ((KVStore.new 4 dir0 []).set [] [1, 2] [3, 4, 5] = .panicked .pairOverBudget ↔
      (4 < 0 + (2 + 3) ∧ ([] : List Rec) = []))
    ∧ ¬ (storeW9.max_bytes < storeW9.mem_size + (2 + 3) ∧ storeW9.memtable = []) :=
  ⟨c9_set_panic_iff (KVStore.new 4 dir0 []) [] [1, 2] [3, 4, 5], by decide⟩

def c9AfterDelete : PRes (KVStore × Disk) :=
  runOps (KVStore.new 12 dir0 [], [])
    [.setStep [1, 2, 3, 4, 5] [6, 7, 8, 9, 10], .delStep [1, 2, 3, 4, 5]]

def c9SmallSet : PRes (KVStore × Disk) :=
  match c9AfterDelete with
  | .ok w => w.1.set w.2 [1] [2, 3]
  | .panicked e => .panicked e

/-- **C9** counterexample — the claim's "iff the single pair alone
exceeds the budget" is false: with budget 12, after `set` of a 10-byte
pair and `delete` of its key (which empties the memtable but leaves
`mem_size = 10`), a `set` of a 3-byte pair (3 ≤ 12) panics. -/
theorem c9_small_pair_panics :
    c9SmallSet = .panicked .pairOverBudget
    ∧ ([1] : Bytes).length + ([2, 3] : Bytes).length ≤ 12 := by decide

/-- **C10** (amended) — `compaction()` is never a no-op: whatever the
catalog size (0 or 1 included), it rebuilds the catalog into exactly the
one SSTable produced by merging the `as_hashmap` views. -/
theorem c10_compaction_always_rebuilds (s : KVStore) (d : Disk) :
    (KVStore.compaction s d).1.get_sstables_count = 1
    ∧ (KVStore.compaction s d).1.sstables =
        [(create_sstable s.sstables.length s.sstable_dir d.length).write
          (compactStore s.sstables)] :=
  ⟨rfl, rfl⟩

/-- **C10** counterexample — with FEWER than two SSTables `compaction()`
is not a no-op: on a fresh store (0 SSTables) it grows the catalog to 1
and writes a new (empty) SSTable file to a previously empty disk. -/
theorem c10_not_noop_below_two :
    (KVStore.new 10 dir0 []).get_sstables_count = 0
    ∧ (KVStore.compaction (KVStore.new 10 dir0 []) []).1.get_sstables_count = 1
    ∧ ((KVStore.compaction (KVStore.new 10 dir0 []) []).2).length = 1 := by decide

/-- **C2** (amended) — on every store whose catalog holds 1 to 10
SSTables each satisfying invariant I1, `get` answers the same before and
after `compaction()`.  (Tombstone records are dropped by `as_hashmap`
rather than preserved, but `SSTable::search` already treats tombstone
records as misses, so dropping them does not change `get`.  The 1–10
bounds are forced: an empty catalog makes the pre-compaction `get` panic
on a division by zero; at sizes where a worker's chunk start exceeds the
catalog length — 11 to 17 among others — the pre-compaction `get` panics
on an out-of-range slice; and at sizes such as 18 to 20, where every
chunk is in range but holds two SSTables, a chunk's oldest hit can win
before the compaction while the newest wins after — see the
counterexample.) -/
theorem c2_compaction_preserves_get_small_catalog (s : KVStore) (d : Disk)
    (hs : ∀ t ∈ s.sstables, recSorted t.records)
    (h1 : 1 ≤ s.sstables.length) (h10 : s.sstables.length ≤ 10) (k : Bytes) :
    (KVStore.compaction s d).1.get k = s.get k :=
  compaction_preserves_get_small s d hs h1 h10 k

def storeW2 : KVStore :=
  { memtable := [], mem_size := 0, max_bytes := 10,
    sstables := [sstDemo], sstable_dir := dir0 }

/-- Witness for C2 (amended) at a concrete one-SSTable store. -/
theorem c2_compaction_preserves_get_small_catalog_witness :
    (∀ t ∈ storeW2.sstables, recSorted t.records)
    ∧ 1 ≤ storeW2.sstables.length
    ∧ storeW2.sstables.length ≤ 10
    ∧ (KVStore.compaction storeW2 []).1.get [1] = storeW2.get [1] :=
  ⟨by decide, by decide, by decide,
   c2_compaction_preserves_get_small_catalog storeW2 [] (by decide)
     (by decide) (by decide) [1]⟩

def jKey (i : Nat) : Bytes := [106, i, 48]

def jVal (i : Nat) : Bytes := [119, i, 48]

def kaaa : Bytes := [97, 97, 97]

def vOld : Bytes := [65, 65, 65]

def vNew : Bytes := [66, 66, 66]

/-- A workload of 22 sets (budget 10, every pair 6 bytes) driving 11
flushes: key `aaa` lands in SSTable 0 with `vOld` and in SSTable 1 with
`vNew`, the other 20 keys are junk. -/
def c2Ops : List StoreOp :=
  [.setStep kaaa vOld, .setStep (jKey 1) (jVal 1),
   .setStep kaaa vNew, .setStep (jKey 2) (jVal 2),
   .setStep (jKey 3) (jVal 3), .setStep (jKey 4) (jVal 4),
   .setStep (jKey 5) (jVal 5), .setStep (jKey 6) (jVal 6),
   .setStep (jKey 7) (jVal 7), .setStep (jKey 8) (jVal 8),
   .setStep (jKey 9) (jVal 9), .setStep (jKey 10) (jVal 10),
   .setStep (jKey 11) (jVal 11), .setStep (jKey 12) (jVal 12),
   .setStep (jKey 13) (jVal 13), .setStep (jKey 14) (jVal 14),
   .setStep (jKey 15) (jVal 15), .setStep (jKey 16) (jVal 16),
   .setStep (jKey 17) (jVal 17), .setStep (jKey 18) (jVal 18),
   .setStep (jKey 19) (jVal 19), .setStep (jKey 20) (jVal 20)]

def c2Before : PRes (KVStore × Disk) := runOps (KVStore.new 10 dir0 [], []) c2Ops

def c2After : PRes (KVStore × Disk) :=
  runOps (KVStore.new 10 dir0 [], []) (c2Ops ++ [.compactStep])

/-- A workload of 36 sets (budget 10, every pair 6 bytes) driving 18
flushes: key `aaa` lands in SSTable 0 with `vOld` and in SSTable 1 with
`vNew`, the other 34 keys are junk.  At 18 SSTables every worker's chunk
start `i * 2 ≤ 18` is in range (no slice panic) and chunks hold two
SSTables each. -/
def c2OpsBig : List StoreOp :=
  c2Ops ++
  [.setStep (jKey 21) (jVal 21), .setStep (jKey 22) (jVal 22),
   .setStep (jKey 23) (jVal 23), .setStep (jKey 24) (jVal 24),
   .setStep (jKey 25) (jVal 25), .setStep (jKey 26) (jVal 26),
   .setStep (jKey 27) (jVal 27), .setStep (jKey 28) (jVal 28),
   .setStep (jKey 29) (jVal 29), .setStep (jKey 30) (jVal 30),
   .setStep (jKey 31) (jVal 31), .setStep (jKey 32) (jVal 32),
   .setStep (jKey 33) (jVal 33), .setStep (jKey 34) (jVal 34)]

def c2BeforeBig : PRes (KVStore × Disk) :=
  runOps (KVStore.new 10 dir0 [], []) c2OpsBig

def c2AfterBig : PRes (KVStore × Disk) :=
  runOps (KVStore.new 10 dir0 [], []) (c2OpsBig ++ [.compactStep])

/-- **C2** counterexample — the claim as stated (get identical before and
after `compaction()` on EVERY reachable state, tombstones preserved)
fails, in three ways.  (a) After the reachable workload `c2OpsBig` the
catalog holds 18 SSTables; every chunk is in range and holds two
SSTables, the first chunk's scan stops at SSTable 0's older value, so
`get aaa` answers `vOld` before the compaction but `vNew` after it.
(b) After `c2Ops` the catalog holds 11 SSTables; worker 6's slice
`&sstables[12..11]` panics, so `get aaa` panics before the compaction
and answers `vNew` after it.  (c) On a fresh (0-SSTable) store, `get`
panics (division by zero) before a compaction and answers `ok none`
after it. -/
theorem c2_compaction_changes_get :
    ((match c2BeforeBig with | .ok w => w.1.get_sstables_count | .panicked _ => 0) = 18
      ∧ runGet c2BeforeBig kaaa = .ok (some vOld)
      ∧ runGet c2AfterBig kaaa = .ok (some vNew)
      ∧ vOld ≠ vNew)
    ∧ ((match c2Before with | .ok w => w.1.get_sstables_count | .panicked _ => 0) = 11
      ∧ runGet c2Before kaaa = .panicked .sliceOutOfRange
      ∧ runGet c2After kaaa = .ok (some vNew))
    ∧ ((KVStore.new 7 dir0 []).get kaaa = .panicked .emptyCatalogDiv
      ∧ (KVStore.compaction (KVStore.new 7 dir0 []) []).1.get kaaa = .ok none) := by
  decide
